import Mathlib

/-!
Verification of the CityLink graph-reachability engine (cityLink.c).

The adjacency matrix of the loaded graph is modelled as a total function
`Nat → Nat → Bool` together with the city count `N`; the C program only ever
reads cells with both indices below `N`.  `calculateTransitiveClosure` and
`findPath` are embedded as executable Lean functions that mirror the C control
flow: nested `for` loops become `List.foldl` over `List.range N`, the
unbounded `while (repeat)` loop becomes a fuel-indexed recursion returning
`none` on fuel exhaustion (sufficiency of the fuel is proved), and the
in-place mutation of the `transitiveClosure`, `visited` and `path` arrays
becomes explicit state threading.
-/

namespace CityLink

/-- A square matrix of booleans; cell `(i, j)` models `m[i][j]`. -/
abbrev Mat := Nat → Nat → Bool

/-- An emitted reachability pair `u -> w`. -/
abbrev Edge := Nat × Nat

/-- Setting cell `(u, w)` of a matrix to 1 (`transitiveClosure[u][w] = 1`). -/
def setCell (c : Mat) (u w : Nat) : Mat :=
  fun i j => if i = u ∧ j = w then true else c i j

/-- The initial emission pass of `calculateTransitiveClosure` (cityLink.c
lines 344-353): scan the closure matrix in row-major order and emit every
cell that holds 1. -/
def emitInit (N : Nat) (tc : Mat) : List Edge :=
  (List.range N).foldl
    (fun acc u =>
      (List.range N).foldl
        (fun acc2 w => if tc u w = true then acc2 ++ [(u, w)] else acc2)
        acc)
    []

/-- The body of one round of the fixpoint `while` loop (cityLink.c lines
368-386): three nested loops over `u`, `v`, `w`; `prev` is the snapshot
`previous`, the fold state is the live `transitiveClosure` matrix paired with
the edges emitted so far in this round. -/
def passBody (N : Nat) (A : Mat) (prev : Mat) (s0 : Mat × List Edge) :
    Mat × List Edge :=
  (List.range N).foldl
    (fun s u =>
      (List.range N).foldl
        (fun s2 v =>
          if prev u v = true then
            (List.range N).foldl
              (fun s3 w =>
                if A v w = true ∧ s3.1 u w = false ∧ u ≠ w then
                  (setCell s3.1 u w, s3.2 ++ [(u, w)])
                else s3)
              s2
          else s2)
        s)
    s0

/-- One full round of the fixpoint loop starting from closure matrix `c`:
`previous` is copied from `c` and the emission list starts empty. -/
def passRun (N : Nat) (A : Mat) (c : Mat) : Mat × List Edge :=
  passBody N A c (c, [])

/-- The `while (repeat)` loop of `calculateTransitiveClosure` (lines
357-387), with explicit fuel: each iteration runs one round; the loop stops
as soon as a round emits nothing (the `repeat` flag stays 0).  `none` models
running out of fuel; the fuel `N + 1` used below is proved sufficient. -/
def closureLoop (N : Nat) (A : Mat) : Nat → Mat → Option (Mat × List Edge)
  | 0, _ => none
  | fuel + 1, c =>
    let p := passRun N A c
    if p.2 = [] then some (c, [])
    else
      match closureLoop N A fuel p.1 with
      | none => none
      | some (m, out) => some (m, p.2 ++ out)

/-- The edges emitted by the fixpoint loop of `calculateTransitiveClosure`. -/
def loopOut (N : Nat) (A : Mat) : List Edge :=
  ((closureLoop N A (N + 1) A).getD (A, [])).2

/-- The full sequence of `u -> w` lines printed by
`calculateTransitiveClosure` on adjacency matrix `A`: the initial row-major
emission of the copied matrix, followed by the fixpoint-loop emissions. -/
def calculateTransitiveClosure (N : Nat) (A : Mat) : List Edge :=
  emitInit N A ++ loopOut N A

/-- The closure matrix after `k` executions of the round body, starting from
the copy of the adjacency matrix. -/
def passIter (N : Nat) (A : Mat) : Nat → Mat
  | 0 => A
  | k + 1 => (passRun N A (passIter N A k)).1

/-! ## Flat (specification-side) forms

The spec (section 4.3) describes the same computation as: emit the true
cells of the copied matrix in row-major order, then repeat rounds that scan
all triples `(u, v, w)` in ascending lexicographic order, adding and emitting
`(u, w)` whenever `previous[u][v]`, `adjacency[v][w]`, `!closure[u][w]` and
`u ≠ w`.  These definitions follow that wording; they are proved equal to
the loop-for-loop embedding above. -/

/-- All pairs `(u, w)` with `u, w < N` in row-major order. -/
def pairsLex (N : Nat) : List Edge :=
  (List.range N).flatMap (fun u => (List.range N).map (fun w => (u, w)))

/-- All triples `(u, v, w)` with `u, v, w < N` in lexicographic order. -/
def triplesLex (N : Nat) : List (Nat × Nat × Nat) :=
  (List.range N).flatMap (fun u =>
    (List.range N).flatMap (fun v =>
      (List.range N).map (fun w => (u, v, w))))

/-- Spec wording of the initial emission: the true cells, row-major. -/
def emitInitSpec (N : Nat) (tc : Mat) : List Edge :=
  (pairsLex N).filter (fun p => tc p.1 p.2)

/-- One candidate step of a fixpoint round, at triple `(u, v, w)`. -/
def stepSpec (A prev : Mat) (s : Mat × List Edge) (t : Nat × Nat × Nat) :
    Mat × List Edge :=
  if prev t.1 t.2.1 = true ∧ A t.2.1 t.2.2 = true ∧ s.1 t.1 t.2.2 = false ∧
      t.1 ≠ t.2.2 then
    (setCell s.1 t.1 t.2.2, s.2 ++ [(t.1, t.2.2)])
  else s

/-- Spec wording of a full round: fold the step over all triples in
lexicographic order. -/
def passSpec (N : Nat) (A : Mat) (c : Mat) : Mat × List Edge :=
  (triplesLex N).foldl (stepSpec A c) (c, [])

/-- The fixpoint loop, spec-side. -/
def closureLoopSpec (N : Nat) (A : Mat) : Nat → Mat → Option (Mat × List Edge)
  | 0, _ => none
  | fuel + 1, c =>
    let p := passSpec N A c
    if p.2 = [] then some (c, [])
    else
      match closureLoopSpec N A fuel p.1 with
      | none => none
      | some (m, out) => some (m, p.2 ++ out)

/-- The emitted sequence as described by the spec. -/
def closureEmitSpec (N : Nat) (A : Mat) : List Edge :=
  emitInitSpec N A ++ ((closureLoopSpec N A (N + 1) A).getD (A, [])).2

/-! ## Directed walks

A walk is the semantic notion the claims compare the program against: a
nonempty sequence of edges of the adjacency matrix, all vertices in range. -/

/-- `WalkFrom N A u xs`: starting at vertex `u`, the vertices of `xs` are
visited in order, each step following an edge of `A`, all vertices of `xs`
below `N`. -/
inductive WalkFrom (N : Nat) (A : Mat) : Nat → List Nat → Prop
  | nil (u : Nat) : WalkFrom N A u []
  | cons {u v : Nat} {xs : List Nat} (hv : v < N) (he : A u v = true)
      (h : WalkFrom N A v xs) : WalkFrom N A u (v :: xs)

/-- The final vertex of the walk starting at `u` and traversing `xs`. -/
def walkEnd (u : Nat) (xs : List Nat) : Nat := xs.getLastD u

/-- There is a nonempty directed walk from `u` to `w`, all vertices in
range. -/
def NWalk (N : Nat) (A : Mat) (u w : Nat) : Prop :=
  u < N ∧ ∃ xs, xs ≠ [] ∧ WalkFrom N A u xs ∧ walkEnd u xs = w

/-- The fold state invariant inside one round: the live closure matrix is the
round-entry matrix `c0` plus exactly the cells emitted so far this round; the
emissions are pairwise distinct in-range off-diagonal pairs that were absent
at round entry. -/
def PassInv (N : Nat) (c0 : Mat) (s : Mat × List Edge) : Prop :=
  (∀ i j, s.1 i j = true ↔ (c0 i j = true ∨ (i, j) ∈ s.2)) ∧
  s.2.Nodup ∧
  (∀ p ∈ s.2, p.1 < N ∧ p.2 < N ∧ p.1 ≠ p.2 ∧ c0 p.1 p.2 = false)

/-- The closure matrix after `k` rounds starting from `c`, flat form. -/
def iterFromS (N : Nat) (A : Mat) (c : Mat) : Nat → Mat
  | 0 => c
  | k + 1 => (passSpec N A (iterFromS N A c k)).1

/-! ## Concrete matrices used as test inputs -/

/-- The all-ones matrix. -/
def matFull : Mat := fun _ _ => true

/-- A different spelling of the all-ones matrix (extensionally equal). -/
def matFullAlt : Mat := fun i _ => if i = i then true else false

/-- A two-vertex cycle without self-loops: edges 0 -> 1 and 1 -> 0. -/
def matCycle2 : Mat := fun i j =>
  decide ((i = 0 ∧ j = 1) ∨ (i = 1 ∧ j = 0))

/-! ## The Path Finder

`findPath` (cityLink.c lines 202-234) is a recursive depth-first search that
mutates the caller's `visited` and `path` arrays and reads the global
`cityMatrix`.  The embedding threads all three through every call, so that
frame properties (the matrix is never written) and the backtracking
discipline (visited marks are undone on failure) are visible in the result.
The C recursion is modelled with an explicit depth budget (`fuel`); `none`
models a call that would recurse deeper than the budget, and the budget
`N + 1` used by the top-level wrapper is proved sufficient. -/

/-- Result of a `findPath` call: the returned flag, the path printed on
success (`[]` on failure), and the final matrix / visited / path arrays. -/
abbrev DfsRes := Bool × List Nat × Mat × (Nat → Bool) × (Nat → Nat)

/-- The `for (i = 0; i < N; i++)` loop of `findPath` (lines 223-229): try
the neighbours in order; `rec` is the recursive call one level deeper.  The
matrix, visited and path arrays are threaded through failed calls. -/
def tryNeighbors (source : Nat)
    (rec : Nat → Mat → (Nat → Bool) → (Nat → Nat) → Option DfsRes) :
    List Nat → Mat → (Nat → Bool) → (Nat → Nat) → Option DfsRes
  | [], mat, vis, path => some (false, [], mat, vis, path)
  | i :: rest, mat, vis, path =>
    if vis i = false ∧ mat source i = true then
      match rec i mat vis path with
      | none => none
      | some (true, pr, m2, v2, p2) => some (true, pr, m2, v2, p2)
      | some (false, _, m2, v2, p2) => tryNeighbors source rec rest m2 v2 p2
    else tryNeighbors source rec rest mat vis path

/-- The body of `findPath`: mark the source visited and record it in the
path; if the source is the destination, print the path so far and succeed;
otherwise scan the neighbours, and on overall failure unmark the source. -/
def findPathF (N : Nat) (destination : Nat) :
    Nat → Nat → Mat → (Nat → Bool) → (Nat → Nat) → Nat → Option DfsRes
  | 0, _, _, _, _, _ => none
  | fuel + 1, source, mat, visited, path, pathIndex =>
    let visited1 : Nat → Bool := fun j => if j = source then true else visited j
    let path1 : Nat → Nat := fun j => if j = pathIndex then source else path j
    if source = destination then
      some (true, (List.range (pathIndex + 1)).map path1, mat, visited1, path1)
    else
      match tryNeighbors source
          (fun i m v p => findPathF N destination fuel i m v p (pathIndex + 1))
          (List.range N) mat visited1 path1 with
      | none => none
      | some (true, pr, m2, v2, p2) => some (true, pr, m2, v2, p2)
      | some (false, pr, m2, v2, p2) =>
          some (false, pr, m2, fun j => if j = source then false else v2 j, p2)

/-- The top-level call made by `implementR`: fresh all-zero `visited`,
freshly allocated `path` (modelled as all zeros), `pathIndex = 0`, and depth
budget `N + 1`. -/
def findPath (N : Nat) (A : Mat) (source destination : Nat) : Option DfsRes :=
  findPathF N destination (N + 1) source A (fun _ => false) (fun _ => 0) 0

/-- The returned success flag of a `findPath` call, when it completed. -/
def statusOf (o : Option DfsRes) : Option Bool := o.map (fun r => r.1)

/-- The number of unvisited in-range vertices. -/
def unvisN (N : Nat) (vis : Nat → Bool) : Nat :=
  ((List.range N).filter (fun i => vis i = false)).length

/-! ### DFS success is equivalent to reachability

`CanReach N A d V s` is the unfolding of the success condition of
`findPath`: either the source is the destination, or some in-range
unvisited neighbour of the source can reach the destination once the source
is marked. -/

inductive CanReach (N : Nat) (A : Mat) (destination : Nat) :
    (Nat → Bool) → Nat → Prop
  | found (V : Nat → Bool) : CanReach N A destination V destination
  | step {V : Nat → Bool} {s i : Nat} (hi : i < N) (he : A s i = true)
      (hne : i ≠ s) (hun : V i = false)
      (h : CanReach N A destination (fun j => if j = s then true else V j) i) :
      CanReach N A destination V s

/-- The empty 1-vertex matrix. -/
def matZero : Mat := fun _ _ => false

/-- A single edge 0 -> 1 on two vertices. -/
def matEdge : Mat := fun i j => decide (i = 0 ∧ j = 1)

/-- A junk result used only as the default of `Option.getD` below. -/
def resJunk : DfsRes := (false, [], fun _ _ => false, fun _ => false,
  fun _ => 0)

theorem walkEnd_nil (u : Nat) : walkEnd u [] = u := rfl

theorem walkEnd_cons (u v : Nat) (xs : List Nat) :
    walkEnd u (v :: xs) = walkEnd v xs := List.getLastD_cons u v xs

theorem walkEnd_singleton (u a : Nat) : walkEnd u [a] = a := rfl

theorem walkEnd_append (u : Nat) (p q : List Nat) :
    walkEnd u (p ++ q) = walkEnd (walkEnd u p) q := by
  induction p generalizing u with
  | nil => simp [walkEnd_nil]
  | cons a p ih => simp [walkEnd_cons, ih]

theorem walkEnd_mem (u : Nat) (xs : List Nat) (h : xs ≠ []) :
    walkEnd u xs ∈ xs := by
  induction xs generalizing u with
  | nil => exact absurd rfl h
  | cons a t ih =>
    rcases t with _ | ⟨b, t⟩
    · simp [walkEnd_singleton]
    · rw [walkEnd_cons]
      exact List.mem_cons_of_mem a (ih a (by simp))

theorem WalkFrom.mem_lt {N : Nat} {A : Mat} {u : Nat} {xs : List Nat}
    (h : WalkFrom N A u xs) : ∀ x ∈ xs, x < N := by
  induction h with
  | nil => simp
  | cons hv he h ih =>
    intro x hx
    rcases List.mem_cons.mp hx with rfl | hx
    · exact hv
    · exact ih x hx

theorem WalkFrom.append_split {N : Nat} {A : Mat} {u : Nat} {p q : List Nat}
    (h : WalkFrom N A u (p ++ q)) :
    WalkFrom N A u p ∧ WalkFrom N A (walkEnd u p) q := by
  induction p generalizing u with
  | nil => exact ⟨WalkFrom.nil u, h⟩
  | cons a p ih =>
    cases h with
    | cons hv he h =>
      obtain ⟨w1, w2⟩ := ih h
      exact ⟨WalkFrom.cons hv he w1, by rwa [walkEnd_cons]⟩

theorem WalkFrom.append {N : Nat} {A : Mat} {u : Nat} {p q : List Nat}
    (h1 : WalkFrom N A u p) (h2 : WalkFrom N A (walkEnd u p) q) :
    WalkFrom N A u (p ++ q) := by
  induction h1 with
  | nil => exact h2
  | cons hv he h ih =>
    exact WalkFrom.cons hv he (ih (by rwa [walkEnd_cons] at h2))

theorem NWalk.src_lt {N : Nat} {A : Mat} {u w : Nat} (h : NWalk N A u w) :
    u < N := h.1

theorem NWalk.dst_lt {N : Nat} {A : Mat} {u w : Nat} (h : NWalk N A u w) :
    w < N := by
  obtain ⟨hu, xs, hne, hw, hend⟩ := h
  exact hw.mem_lt _ (hend ▸ walkEnd_mem u xs hne)

theorem NWalk.edge {N : Nat} {A : Mat} {u w : Nat} (hu : u < N) (hw : w < N)
    (he : A u w = true) : NWalk N A u w :=
  ⟨hu, [w], by simp, WalkFrom.cons hw he (WalkFrom.nil w),
    walkEnd_singleton u w⟩

theorem NWalk.cons {N : Nat} {A : Mat} {u v w : Nat} (hu : u < N)
    (he : A u v = true) (h : NWalk N A v w) : NWalk N A u w := by
  obtain ⟨hv, xs, hne, hwalk, hend⟩ := h
  exact ⟨hu, v :: xs, by simp, WalkFrom.cons hv he hwalk,
    by rwa [walkEnd_cons]⟩

theorem NWalk.snoc {N : Nat} {A : Mat} {u v w : Nat} (h : NWalk N A u v)
    (hw : w < N) (he : A v w = true) : NWalk N A u w := by
  obtain ⟨hu, xs, hne, hwalk, hend⟩ := h
  refine ⟨hu, xs ++ [w], by simp, ?_, ?_⟩
  · exact hwalk.append (hend ▸ WalkFrom.cons hw he (WalkFrom.nil w))
  · rw [walkEnd_append, hend, walkEnd_singleton]

/-- A list that is not `Nodup` splits around an element that recurs later. -/
theorem exists_dup_split {l : List Nat} (h : ¬ l.Nodup) :
    ∃ a p q, l = p ++ a :: q ∧ a ∈ q := by
  induction l with
  | nil => simp at h
  | cons b t ih =>
    by_cases hb : b ∈ t
    · exact ⟨b, [], t, rfl, hb⟩
    · have ht : ¬ t.Nodup := by
        intro hnd
        exact h (List.nodup_cons.mpr ⟨hb, hnd⟩)
      obtain ⟨a, p, q, rfl, hq⟩ := ih ht
      exact ⟨a, b :: p, q, rfl, hq⟩

/-- Any nonempty walk whose endpoints differ can be shortened to a walk with
pairwise-distinct vertices, none equal to the source. -/
theorem WalkFrom.shorten {N : Nat} {A : Mat} :
    ∀ (n : Nat) (xs : List Nat) (u : Nat), xs.length ≤ n →
      WalkFrom N A u xs → xs ≠ [] → u ≠ walkEnd u xs →
      ∃ ys, ys ≠ [] ∧ WalkFrom N A u ys ∧ walkEnd u ys = walkEnd u xs ∧
        (u :: ys).Nodup := by
  intro n
  induction n with
  | zero =>
    intro xs u hlen hw hne _
    cases xs with
    | nil => exact absurd rfl hne
    | cons a t => simp at hlen
  | succ n ih =>
    intro xs u hlen hw hne hdiff
    by_cases hnd : (u :: xs).Nodup
    · exact ⟨xs, hne, hw, rfl, hnd⟩
    by_cases hu : u ∈ xs
    · -- cut everything up to an occurrence of the source
      obtain ⟨s, t, rfl⟩ := List.append_of_mem hu
      have hxs : s ++ u :: t = (s ++ [u]) ++ t := by simp
      have hend : walkEnd u (s ++ u :: t) = walkEnd u t := by
        rw [hxs, walkEnd_append, walkEnd_append, walkEnd_singleton]
      have ht : t ≠ [] := by
        intro hT
        apply hdiff
        rw [hend, hT, walkEnd_nil]
      have hwt : WalkFrom N A u t := by
        have h2 := (hxs ▸ hw).append_split.2
        rwa [walkEnd_append, walkEnd_singleton] at h2
      have hlt : t.length ≤ n := by
        have : (s ++ u :: t).length ≤ n + 1 := hlen
        simp [List.length_append] at this
        omega
      obtain ⟨ys, h1, h2, h3, h4⟩ :=
        ih t u hlt hwt ht (by rw [← hend]; exact hdiff)
      exact ⟨ys, h1, h2, by rw [h3, hend], h4⟩
    · -- cut a cycle between two occurrences of an interior vertex
      have hxnd : ¬ xs.Nodup := by
        intro hnd2
        exact hnd (List.nodup_cons.mpr ⟨hu, hnd2⟩)
      obtain ⟨a, p, q, rfl, haq⟩ := exists_dup_split hxnd
      obtain ⟨q1, q2, rfl⟩ := List.append_of_mem haq
      have hxs : p ++ a :: (q1 ++ a :: q2) =
          (p ++ [a]) ++ ((q1 ++ [a]) ++ q2) := by simp
      have hsplit1 := (hxs ▸ hw).append_split
      have hendpa : walkEnd u (p ++ [a]) = a := by
        rw [walkEnd_append, walkEnd_singleton]
      have hsplit2 := hsplit1.2.append_split
      rw [hendpa] at hsplit2
      have hendq1a : walkEnd a (q1 ++ [a]) = a := by
        rw [walkEnd_append, walkEnd_singleton]
      rw [hendq1a] at hsplit2
      have hys : WalkFrom N A u (p ++ a :: q2) := by
        have := hsplit1.1.append (q := q2) (by rw [hendpa]; exact hsplit2.2)
        simpa using this
      have hendeq : walkEnd u (p ++ a :: q2) =
          walkEnd u (p ++ a :: (q1 ++ a :: q2)) := by
        have h1 : walkEnd u (p ++ a :: q2) = walkEnd a q2 := by
          have : p ++ a :: q2 = (p ++ [a]) ++ q2 := by simp
          rw [this, walkEnd_append, hendpa]
        have h2 : walkEnd u (p ++ a :: (q1 ++ a :: q2)) = walkEnd a q2 := by
          rw [hxs, walkEnd_append, hendpa, walkEnd_append, hendq1a]
        rw [h1, h2]
      have hlys : (p ++ a :: q2).length ≤ n := by
        have : (p ++ a :: (q1 ++ a :: q2)).length ≤ n + 1 := hlen
        simp [List.length_append] at this ⊢
        omega
      obtain ⟨ys, h1, h2, h3, h4⟩ := ih (p ++ a :: q2) u hlys hys (by simp)
        (by rw [← hendeq] at hdiff; exact hdiff)
      exact ⟨ys, h1, h2, by rw [h3, hendeq], h4⟩

/-- A duplicate-free list of naturals below `N` has length at most `N`. -/
theorem length_le_of_nodup_lt {l : List Nat} {N : Nat} (hn : l.Nodup)
    (hb : ∀ x ∈ l, x < N) : l.length ≤ N := by
  have h1 : l.toFinset.card = l.length := List.toFinset_card_of_nodup hn
  have h2 : l.toFinset ⊆ Finset.range N := by
    intro x hx
    rw [List.mem_toFinset] at hx
    rw [Finset.mem_range]
    exact hb x hx
  calc l.length = l.toFinset.card := h1.symm
    _ ≤ (Finset.range N).card := Finset.card_le_card h2
    _ = N := Finset.card_range N

/-! ## Generic fold helpers -/

theorem foldl_congr_fun {α σ : Type _} {g1 g2 : σ → α → σ} {l : List α}
    (h : ∀ s, ∀ a ∈ l, g1 s a = g2 s a) (s : σ) :
    l.foldl g1 s = l.foldl g2 s := by
  induction l generalizing s with
  | nil => rfl
  | cons a t ih =>
    rw [List.foldl_cons, List.foldl_cons, h s a (by simp)]
    exact ih (fun s a ha => h s a (List.mem_cons_of_mem _ ha)) _

theorem foldl_id_of_step_id {α σ : Type _} {g : σ → α → σ} {l : List α}
    (h : ∀ s, ∀ a ∈ l, g s a = s) (s : σ) : l.foldl g s = s := by
  induction l generalizing s with
  | nil => rfl
  | cons a t ih =>
    rw [List.foldl_cons, h s a (by simp)]
    exact ih (fun s a ha => h s a (List.mem_cons_of_mem _ ha)) s

theorem foldl_flatMap {α β σ : Type _} (l : List α) (f : α → List β)
    (g : σ → β → σ) (init : σ) :
    (l.flatMap f).foldl g init = l.foldl (fun s a => (f a).foldl g s) init := by
  induction l generalizing init with
  | nil => rfl
  | cons a t ih => simp [List.foldl_append, ih]

theorem foldl_emit {α β : Type _} (l : List α) (cond : α → Bool) (f : α → β)
    (acc : List β) :
    l.foldl (fun a x => if cond x = true then a ++ [f x] else a) acc =
      acc ++ (l.filter cond).map f := by
  induction l generalizing acc with
  | nil => simp
  | cons a t ih =>
    by_cases h : cond a = true
    · simp [List.foldl_cons, h, ih, List.filter_cons]
    · simp [List.foldl_cons, h, ih, List.filter_cons]

theorem foldl_append_parts {α β : Type _} (l : List α) (g : α → List β)
    (acc : List β) :
    l.foldl (fun a x => a ++ g x) acc = acc ++ l.flatMap g := by
  induction l generalizing acc with
  | nil => simp
  | cons a t ih => simp [List.foldl_cons, ih]

/-! ## The nested loops and their flat forms agree -/

theorem emitInit_eq (N : Nat) (tc : Mat) : emitInit N tc = emitInitSpec N tc := by
  rw [emitInit]
  have hinner : ∀ (acc : List Edge), ∀ u ∈ List.range N,
      (List.range N).foldl
        (fun acc2 w => if tc u w = true then acc2 ++ [(u, w)] else acc2) acc =
      acc ++ ((List.range N).filter (fun w => tc u w)).map (fun w => (u, w)) :=
    fun acc u _ => foldl_emit (List.range N) (fun w => tc u w) (fun w => (u, w)) acc
  rw [foldl_congr_fun hinner, foldl_append_parts]
  rw [emitInitSpec, pairsLex, List.filter_flatMap]
  simp only [List.nil_append]
  congr 1
  funext u
  rw [List.filter_map]
  rfl

theorem passBody_eq (N : Nat) (A prev : Mat) (s0 : Mat × List Edge) :
    passBody N A prev s0 = (triplesLex N).foldl (stepSpec A prev) s0 := by
  rw [passBody, triplesLex, foldl_flatMap]
  apply foldl_congr_fun
  intro s u _
  rw [foldl_flatMap]
  apply foldl_congr_fun
  intro s2 v _
  rw [List.foldl_map]
  by_cases h : prev u v = true
  · rw [if_pos h]
    apply foldl_congr_fun
    intro s3 w _
    simp [stepSpec, h]
  · rw [if_neg h]
    have hfalse : prev u v = false := by
      cases hval : prev u v
      · rfl
      · exact absurd hval h
    refine (foldl_id_of_step_id ?_ s2).symm
    intro s3 w _
    simp [stepSpec, hfalse]

theorem passRun_eq (N : Nat) (A c : Mat) : passRun N A c = passSpec N A c :=
  passBody_eq N A c (c, [])

theorem closureLoop_eq (N : Nat) (A : Mat) :
    ∀ (fuel : Nat) (c : Mat),
      closureLoop N A fuel c = closureLoopSpec N A fuel c := by
  intro fuel
  induction fuel with
  | zero => intro c; rfl
  | succ fuel ih =>
    intro c
    rw [closureLoop, closureLoopSpec]
    simp only [passRun_eq, ih]

theorem calculateTransitiveClosure_eq (N : Nat) (A : Mat) :
    calculateTransitiveClosure N A = closureEmitSpec N A := by
  rw [calculateTransitiveClosure, closureEmitSpec, emitInit_eq, loopOut,
    closureLoop_eq]

/-! ## Membership in the enumeration lists -/

theorem mem_pairsLex {N u w : Nat} :
    (u, w) ∈ pairsLex N ↔ u < N ∧ w < N := by
  simp [pairsLex, List.mem_flatMap, List.mem_range, List.mem_map]

theorem mem_triplesLex {N u v w : Nat} :
    (u, v, w) ∈ triplesLex N ↔ u < N ∧ v < N ∧ w < N := by
  simp [triplesLex, List.mem_flatMap, List.mem_range, List.mem_map]
  constructor
  · rintro ⟨a, ha, b, hb, c, hc, rfl, rfl, rfl⟩
    exact ⟨ha, hb, hc⟩
  · rintro ⟨hu, hv, hw⟩
    exact ⟨u, hu, v, hv, w, hw, rfl, rfl, rfl⟩

theorem triplesLex_bounds {N : Nat} :
    ∀ t ∈ triplesLex N, t.1 < N ∧ t.2.1 < N ∧ t.2.2 < N := by
  rintro ⟨u, v, w⟩ ht
  exact mem_triplesLex.mp ht

theorem pairsLex_nodup (N : Nat) : (pairsLex N).Nodup := by
  rw [pairsLex, List.nodup_flatMap]
  constructor
  · intro u _
    exact (List.nodup_range N).map (fun a b h => by injection h)
  · apply List.Pairwise.imp ?_ ((List.nodup_range N))
    intro a b hab
    intro x hxa hxb
    rcases List.mem_map.mp hxa with ⟨wa, _, rfl⟩
    rcases List.mem_map.mp hxb with ⟨wb, _, h⟩
    exact hab (by injection h with h1 h2; exact h1.symm)

/-! ## Invariants of one fixpoint round -/


theorem stepSpec_mono {A prev : Mat} {s : Mat × List Edge}
    {t : Nat × Nat × Nat} {i j : Nat} (h : s.1 i j = true) :
    (stepSpec A prev s t).1 i j = true := by
  rw [stepSpec]
  split
  · show setCell s.1 t.1 t.2.2 i j = true
    rw [setCell]
    split
    · rfl
    · exact h
  · exact h

theorem foldPass_mono {A prev : Mat} (tl : List (Nat × Nat × Nat)) :
    ∀ (s : Mat × List Edge) (i j : Nat), s.1 i j = true →
      (tl.foldl (stepSpec A prev) s).1 i j = true := by
  induction tl with
  | nil => intro s i j h; exact h
  | cons t tl ih =>
    intro s i j h
    exact ih _ i j (stepSpec_mono h)

theorem stepSpec_inv {N : Nat} {A prev c0 : Mat} {s : Mat × List Edge}
    {t : Nat × Nat × Nat} (ht : t.1 < N ∧ t.2.1 < N ∧ t.2.2 < N)
    (h : PassInv N c0 s) : PassInv N c0 (stepSpec A prev s t) := by
  obtain ⟨u, v, w⟩ := t
  obtain ⟨h1, h2, h3⟩ := h
  rw [stepSpec]
  split
  case isTrue hc =>
    obtain ⟨hprev, hA, hcell, hne⟩ := hc
    have hnotmem : (u, w) ∉ s.2 := by
      intro hm
      have := (h1 u w).mpr (Or.inr hm)
      rw [this] at hcell
      cases hcell
    have hc0 : c0 u w = false := by
      cases hval : c0 u w
      · rfl
      · have := (h1 u w).mpr (Or.inl hval)
        rw [this] at hcell
        cases hcell
    refine ⟨?_, ?_, ?_⟩
    · intro i j
      show setCell s.1 u w i j = true ↔ _
      rw [setCell]
      by_cases hij : i = u ∧ j = w
      · rw [if_pos hij]
        obtain ⟨rfl, rfl⟩ := hij
        simp
      · rw [if_neg hij]
        rw [h1 i j]
        constructor
        · rintro (hl | hr)
          · exact Or.inl hl
          · exact Or.inr (by simp [hr])
        · rintro (hl | hr)
          · exact Or.inl hl
          · rcases List.mem_append.mp hr with hm | hm
            · exact Or.inr hm
            · exfalso
              apply hij
              have : (i, j) = (u, w) := by simpa using hm
              constructor
              · exact congrArg Prod.fst this
              · exact congrArg Prod.snd this
    · refine List.Nodup.append h2 (List.nodup_singleton _) ?_
      intro a ha hb
      have : a = (u, w) := by simpa using hb
      exact hnotmem (this ▸ ha)
    · intro p hp
      rcases List.mem_append.mp hp with hm | hm
      · exact h3 p hm
      · have : p = (u, w) := by simpa using hm
        subst this
        exact ⟨ht.1, ht.2.2, hne, hc0⟩
  case isFalse => exact ⟨h1, h2, h3⟩

theorem foldPass_inv {N : Nat} {A prev c0 : Mat}
    (tl : List (Nat × Nat × Nat))
    (htl : ∀ t ∈ tl, t.1 < N ∧ t.2.1 < N ∧ t.2.2 < N) :
    ∀ s, PassInv N c0 s → PassInv N c0 (tl.foldl (stepSpec A prev) s) := by
  induction tl with
  | nil => intro s h; exact h
  | cons t tl ih =>
    intro s h
    exact ih (fun x hx => htl x (List.mem_cons_of_mem _ hx)) _
      (stepSpec_inv (htl t (by simp)) h)

theorem foldPass_sound {N : Nat} {A prev : Mat}
    (hprev : ∀ i j, i < N → j < N → prev i j = true → NWalk N A i j)
    (tl : List (Nat × Nat × Nat))
    (htl : ∀ t ∈ tl, t.1 < N ∧ t.2.1 < N ∧ t.2.2 < N) :
    ∀ s, (∀ p ∈ s.2, NWalk N A p.1 p.2) →
      ∀ p ∈ (tl.foldl (stepSpec A prev) s).2, NWalk N A p.1 p.2 := by
  induction tl with
  | nil => intro s h; exact h
  | cons t tl ih =>
    intro s h
    apply ih (fun x hx => htl x (List.mem_cons_of_mem _ hx))
    obtain ⟨u, v, w⟩ := t
    obtain ⟨hu, hv, hw⟩ := htl (u, v, w) (by simp)
    rw [stepSpec]
    split
    case isTrue hc =>
      intro p hp
      rcases List.mem_append.mp hp with hm | hm
      · exact h p hm
      · have : p = (u, w) := by simpa using hm
        subst this
        exact NWalk.snoc (hprev u v hu hv hc.1) hw hc.2.1
    case isFalse => exact h

theorem foldPass_progress {A prev : Mat} (tl : List (Nat × Nat × Nat))
    {u v w : Nat} (hmem : (u, v, w) ∈ tl) (hprev : prev u v = true)
    (hA : A v w = true) (hne : u ≠ w) :
    ∀ s, (tl.foldl (stepSpec A prev) s).1 u w = true := by
  induction tl with
  | nil => cases hmem
  | cons t tl ih =>
    intro s
    rcases List.mem_cons.mp hmem with heq | hm
    · subst heq
      rw [List.foldl_cons]
      apply foldPass_mono
      rw [stepSpec]
      split
      case isTrue hc =>
        show setCell s.1 u w u w = true
        rw [setCell]
        simp
      case isFalse hc =>
        cases hval : s.1 u w
        · exact absurd ⟨hprev, hA, hval, hne⟩ hc
        · rfl
    · rw [List.foldl_cons]
      exact ih hm _

theorem foldPass_of_stable {N : Nat} {A c0 : Mat}
    (hstab : ∀ u v w, u < N → v < N → w < N → c0 u v = true →
      A v w = true → u ≠ w → c0 u w = true)
    (tl : List (Nat × Nat × Nat))
    (htl : ∀ t ∈ tl, t.1 < N ∧ t.2.1 < N ∧ t.2.2 < N) (out : List Edge) :
    tl.foldl (stepSpec A c0) (c0, out) = (c0, out) := by
  induction tl with
  | nil => rfl
  | cons t tl ih =>
    obtain ⟨u, v, w⟩ := t
    obtain ⟨hu, hv, hw⟩ := htl (u, v, w) (by simp)
    rw [List.foldl_cons]
    have hstep : stepSpec A c0 (c0, out) (u, v, w) = (c0, out) := by
      rw [stepSpec]
      split
      case isTrue hc =>
        exfalso
        have h3 : c0 u w = false := hc.2.2.1
        have htrue := hstab u v w hu hv hw hc.1 hc.2.1 hc.2.2.2
        rw [htrue] at h3
        cases h3
      case isFalse => rfl
    rw [hstep]
    exact ih (fun x hx => htl x (List.mem_cons_of_mem _ hx))

/-! ## Facts about one full round `passSpec` -/

theorem passSpec_inv (N : Nat) (A c : Mat) :
    PassInv N c (passSpec N A c) :=
  foldPass_inv (triplesLex N) triplesLex_bounds (c, [])
    ⟨fun i j => by simp, List.nodup_nil, by simp⟩

theorem passSpec_cellChar (N : Nat) (A c : Mat) (i j : Nat) :
    (passSpec N A c).1 i j = true ↔
      (c i j = true ∨ (i, j) ∈ (passSpec N A c).2) :=
  (passSpec_inv N A c).1 i j

theorem passSpec_nodup (N : Nat) (A c : Mat) : (passSpec N A c).2.Nodup :=
  (passSpec_inv N A c).2.1

theorem passSpec_shape (N : Nat) (A c : Mat) :
    ∀ p ∈ (passSpec N A c).2,
      p.1 < N ∧ p.2 < N ∧ p.1 ≠ p.2 ∧ c p.1 p.2 = false :=
  (passSpec_inv N A c).2.2

theorem passSpec_mono (N : Nat) (A c : Mat) (i j : Nat)
    (h : c i j = true) : (passSpec N A c).1 i j = true :=
  foldPass_mono (triplesLex N) (c, []) i j h

theorem passSpec_sound (N : Nat) (A c : Mat)
    (hc : ∀ i j, i < N → j < N → c i j = true → NWalk N A i j) :
    ∀ p ∈ (passSpec N A c).2, NWalk N A p.1 p.2 :=
  foldPass_sound hc (triplesLex N) triplesLex_bounds (c, []) (by simp)

theorem passSpec_progress (N : Nat) (A c : Mat) {u v w : Nat} (hu : u < N)
    (hv : v < N) (hw : w < N) (hcv : c u v = true) (hA : A v w = true)
    (hne : u ≠ w) : (passSpec N A c).1 u w = true :=
  foldPass_progress (triplesLex N) (mem_triplesLex.mpr ⟨hu, hv, hw⟩)
    hcv hA hne (c, [])

theorem passSpec_of_stable (N : Nat) (A c : Mat)
    (hstab : ∀ u v w, u < N → v < N → w < N → c u v = true →
      A v w = true → u ≠ w → c u w = true) :
    passSpec N A c = (c, []) :=
  foldPass_of_stable hstab (triplesLex N) triplesLex_bounds []

theorem passSpec_stable_of_empty (N : Nat) (A c : Mat)
    (hempty : (passSpec N A c).2 = []) :
    ∀ u v w, u < N → v < N → w < N → c u v = true → A v w = true →
      u ≠ w → c u w = true := by
  intro u v w hu hv hw hcv hA hne
  have hcell := passSpec_progress N A c hu hv hw hcv hA hne
  rcases (passSpec_cellChar N A c u w).mp hcell with h | h
  · exact h
  · rw [hempty] at h
    cases h

theorem passSpec_diag (N : Nat) (A c : Mat) (u : Nat) :
    (passSpec N A c).1 u u = c u u := by
  cases hval : c u u
  · cases hres : (passSpec N A c).1 u u
    · rfl
    · rcases (passSpec_cellChar N A c u u).mp hres with h | h
      · rw [hval] at h; cases h
      · exact absurd rfl (passSpec_shape N A c _ h).2.2.1
  · exact passSpec_mono N A c u u hval

/-! ## The fixpoint loop -/


theorem passIter_eq (N : Nat) (A : Mat) :
    ∀ k, passIter N A k = iterFromS N A A k := by
  intro k
  induction k with
  | zero => rfl
  | succ k ih => rw [passIter, iterFromS, passRun_eq, ih]

theorem iterFromS_shift (N : Nat) (A : Mat) (c : Mat) :
    ∀ k, iterFromS N A c (k + 1) = iterFromS N A (passSpec N A c).1 k := by
  intro k
  induction k with
  | zero => rfl
  | succ k ih => rw [iterFromS, ih, iterFromS]

/-- Everything `closureLoopSpec` guarantees about a completed run: the final
matrix is the start matrix plus exactly the emitted cells; emissions are
pairwise distinct in-range off-diagonal pairs absent at loop entry; and the
final matrix is a fixpoint (one more round emits nothing). -/
theorem loopSpec_char (N : Nat) (A : Mat) :
    ∀ (fuel : Nat) (c m : Mat) (out : List Edge),
      closureLoopSpec N A fuel c = some (m, out) →
      (∀ i j, m i j = true ↔ (c i j = true ∨ (i, j) ∈ out)) ∧
      out.Nodup ∧
      (∀ p ∈ out, p.1 < N ∧ p.2 < N ∧ p.1 ≠ p.2 ∧ c p.1 p.2 = false) ∧
      (passSpec N A m).2 = [] := by
  intro fuel
  induction fuel with
  | zero => intro c m out h; cases h
  | succ fuel ih =>
    intro c m out h
    rw [closureLoopSpec] at h
    by_cases hemp : (passSpec N A c).2 = []
    · rw [if_pos hemp] at h
      obtain ⟨rfl, rfl⟩ : c = m ∧ [] = out := by
        injection h with h
        exact ⟨congrArg Prod.fst h, congrArg Prod.snd h⟩
      refine ⟨fun i j => by simp, List.nodup_nil, by simp, hemp⟩
    · rw [if_neg hemp] at h
      cases hrec : closureLoopSpec N A fuel (passSpec N A c).1 with
      | none => rw [hrec] at h; cases h
      | some pr =>
        obtain ⟨m1, out1⟩ := pr
        rw [hrec] at h
        obtain ⟨rfl, rfl⟩ : m1 = m ∧ (passSpec N A c).2 ++ out1 = out := by
          injection h with h
          exact ⟨congrArg Prod.fst h, congrArg Prod.snd h⟩
        obtain ⟨ih1, ih2, ih3, ih4⟩ := ih _ _ _ hrec
        refine ⟨?_, ?_, ?_, ih4⟩
        · intro i j
          rw [ih1 i j, passSpec_cellChar]
          constructor
          · rintro ((h | h) | h)
            · exact Or.inl h
            · exact Or.inr (List.mem_append.mpr (Or.inl h))
            · exact Or.inr (List.mem_append.mpr (Or.inr h))
          · rintro (h | h)
            · exact Or.inl (Or.inl h)
            · rcases List.mem_append.mp h with h | h
              · exact Or.inl (Or.inr h)
              · exact Or.inr h
        · refine List.Nodup.append (passSpec_nodup N A c) ih2 ?_
          intro p hp1 hp2
          have hfalse : (passSpec N A c).1 p.1 p.2 = false := (ih3 p hp2).2.2.2
          have htrue : (passSpec N A c).1 p.1 p.2 = true :=
            (passSpec_cellChar N A c p.1 p.2).mpr (Or.inr (by
              cases p; exact hp1))
          rw [htrue] at hfalse
          cases hfalse
        · intro p hp
          rcases List.mem_append.mp hp with hm | hm
          · exact passSpec_shape N A c p hm
          · obtain ⟨hp1, hp2, hp3, hp4⟩ := ih3 p hm
            refine ⟨hp1, hp2, hp3, ?_⟩
            cases hval : c p.1 p.2
            · rfl
            · have := passSpec_mono N A c p.1 p.2 hval
              rw [this] at hp4
              cases hp4

/-- A nonempty walk between distinct endpoints can be shortened to one of at
most `N - 1` edges (a duplicate-free vertex list avoiding the source). -/
theorem NWalk.short {N : Nat} {A : Mat} {u w : Nat} (h : NWalk N A u w)
    (hne : u ≠ w) :
    ∃ ys, ys ≠ [] ∧ WalkFrom N A u ys ∧ walkEnd u ys = w ∧
      (u :: ys).Nodup ∧ ys.length + 1 ≤ N := by
  obtain ⟨hu, xs, hxne, hwalk, hend⟩ := h
  obtain ⟨ys, h1, h2, h3, h4⟩ :=
    WalkFrom.shorten xs.length xs u le_rfl hwalk hxne (hend ▸ hne)
  refine ⟨ys, h1, h2, by rw [h3, hend], h4, ?_⟩
  have : (u :: ys).length ≤ N :=
    length_le_of_nodup_lt h4 (by
      intro x hx
      rcases List.mem_cons.mp hx with rfl | hx
      · exact hu
      · exact h2.mem_lt x hx)
  simpa using this

/-! ## The loop reaches its fixpoint within `N` rounds -/

theorem iterS_sound (N : Nat) (A : Mat) :
    ∀ k i j, i < N → j < N → iterFromS N A A k i j = true →
      NWalk N A i j := by
  intro k
  induction k with
  | zero => intro i j hi hj h; exact NWalk.edge hi hj h
  | succ k ih =>
    intro i j hi hj h
    rcases (passSpec_cellChar N A (iterFromS N A A k) i j).mp h with h | h
    · exact ih i j hi hj h
    · exact passSpec_sound N A (iterFromS N A A k) ih (i, j) h

theorem iterS_monoA (N : Nat) (A : Mat) :
    ∀ k i j, A i j = true → iterFromS N A A k i j = true := by
  intro k
  induction k with
  | zero => intro i j h; exact h
  | succ k ih => intro i j h; exact passSpec_mono N A _ i j (ih i j h)

theorem iterS_progress (N : Nat) (A : Mat) {u : Nat} (hu : u < N) :
    ∀ (k : Nat) (w : Nat) (ys : List Nat), u ≠ w → ys ≠ [] →
      WalkFrom N A u ys → walkEnd u ys = w → ys.length ≤ k + 1 →
      iterFromS N A A k u w = true := by
  intro k
  induction k with
  | zero =>
    intro w ys hne hys hwalk hend hlen
    cases ys with
    | nil => exact absurd rfl hys
    | cons x t =>
      cases t with
      | nil =>
        cases hwalk with
        | cons hv he _ =>
          rw [walkEnd_singleton] at hend
          subst hend
          exact he
      | cons y t => simp at hlen
  | succ k ih =>
    intro w ys hne hys hwalk hend hlen
    by_cases hshort : ys.length ≤ k + 1
    · exact passSpec_mono N A _ u w (ih w ys hne hys hwalk hend hshort)
    · have hgl : ys.dropLast ++ [ys.getLast hys] = ys :=
        List.dropLast_append_getLast hys
      have hlast : ys.getLast hys = w := by
        have := walkEnd_append u ys.dropLast [ys.getLast hys]
        rw [hgl, walkEnd_singleton] at this
        rw [← hend, this]
      rw [hlast] at hgl
      have hsplit : WalkFrom N A u ys.dropLast ∧
          WalkFrom N A (walkEnd u ys.dropLast) [w] :=
        (hgl ▸ hwalk).append_split
      have hdne : ys.dropLast ≠ [] := by
        intro hnil
        apply hshort
        have hLen : ys.length = ys.dropLast.length + 1 := by
          rw [← hgl]; simp
        rw [hnil] at hLen
        simp at hLen
        omega
      set v := walkEnd u ys.dropLast with hv
      have hedge : A v w = true ∧ w < N := by
        cases hsplit.2 with
        | cons hvN he _ => exact ⟨he, hvN⟩
      by_cases hvu : v = u
      · rw [hvu] at hedge
        exact iterS_monoA N A (k + 1) u w hedge.1
      · have hvN : v < N :=
          hsplit.1.mem_lt v (walkEnd_mem u ys.dropLast hdne)
        have hdlen : ys.dropLast.length ≤ k + 1 := by
          have : ys.length = ys.dropLast.length + 1 := by
            rw [← hgl]; simp
          omega
        have hiter : iterFromS N A A k u v = true :=
          ih v ys.dropLast (fun h => hvu h.symm) hdne hsplit.1 rfl hdlen
        exact passSpec_progress N A _ hu hvN hedge.2 hiter hedge.1 hne

theorem passSpec_out_nil_of_le_one {N : Nat} (hN : N ≤ 1) (A c : Mat) :
    (passSpec N A c).2 = [] := by
  cases hout : (passSpec N A c).2 with
  | nil => rfl
  | cons p t =>
    obtain ⟨h1, h2, h3, _⟩ :=
      passSpec_shape N A c p (by rw [hout]; simp)
    exfalso
    omega

/-- After `N` rounds the closure matrix is a fixpoint: one more round emits
nothing. -/
theorem stabN (N : Nat) (A : Mat) :
    (passSpec N A (iterFromS N A A N)).2 = [] := by
  match N with
  | 0 => exact passSpec_out_nil_of_le_one (by omega) A _
  | 1 => exact passSpec_out_nil_of_le_one (by omega) A _
  | n + 2 =>
    have hstab : ∀ u v w, u < n + 2 → v < n + 2 → w < n + 2 →
        iterFromS (n + 2) A A n u v = true → A v w = true → u ≠ w →
        iterFromS (n + 2) A A n u w = true := by
      intro u v w hu hv hw hc hA hne
      have hwalk : NWalk (n + 2) A u w :=
        NWalk.snoc (iterS_sound (n + 2) A n u v hu hv hc) hw hA
      obtain ⟨ys, hys, hwalkys, hend, hnd, hlen⟩ := hwalk.short hne
      exact iterS_progress (n + 2) A hu n w ys hne hys hwalkys hend
        (by omega)
    have hpass : passSpec (n + 2) A (iterFromS (n + 2) A A n) =
        (iterFromS (n + 2) A A n, []) :=
      passSpec_of_stable (n + 2) A _ hstab
    have h1 : iterFromS (n + 2) A A (n + 1) = iterFromS (n + 2) A A n := by
      rw [iterFromS, hpass]
    have h2 : iterFromS (n + 2) A A (n + 2) = iterFromS (n + 2) A A n := by
      rw [iterFromS, h1, hpass]
    rw [h2, hpass]

theorem loopSpec_fuel (N : Nat) (A : Mat) :
    ∀ (k : Nat) (c : Mat), (passSpec N A (iterFromS N A c k)).2 = [] →
      ∀ fuel, k < fuel →
        closureLoopSpec N A fuel c = closureLoopSpec N A (k + 1) c := by
  intro k
  induction k with
  | zero =>
    intro c hstop fuel hfuel
    match fuel, hfuel with
    | fuel + 1, _ =>
      have hstop0 : (passSpec N A c).2 = [] := hstop
      rw [closureLoopSpec, closureLoopSpec]
      rw [if_pos hstop0, if_pos hstop0]
  | succ k ih =>
    intro c hstop fuel hfuel
    match fuel, hfuel with
    | fuel + 1, _ =>
      rw [closureLoopSpec]
      conv_rhs => rw [closureLoopSpec]
      by_cases hemp : (passSpec N A c).2 = []
      · rw [if_pos hemp, if_pos hemp]
      · rw [if_neg hemp, if_neg hemp]
        rw [iterFromS_shift] at hstop
        rw [ih (passSpec N A c).1 hstop fuel (by omega),
          ih (passSpec N A c).1 hstop (k + 1) (by omega)]

theorem loopSpec_total (N : Nat) (A : Mat) :
    ∀ (k : Nat) (c : Mat), (passSpec N A (iterFromS N A c k)).2 = [] →
      ∃ m out, closureLoopSpec N A (k + 1) c = some (m, out) := by
  intro k
  induction k with
  | zero =>
    intro c hstop
    refine ⟨c, [], ?_⟩
    have hstop0 : (passSpec N A c).2 = [] := hstop
    rw [closureLoopSpec, if_pos hstop0]
  | succ k ih =>
    intro c hstop
    by_cases hemp : (passSpec N A c).2 = []
    · refine ⟨c, [], ?_⟩
      rw [closureLoopSpec, if_pos hemp]
    · rw [iterFromS_shift] at hstop
      obtain ⟨m, out, hrec⟩ := ih (passSpec N A c).1 hstop
      refine ⟨m, (passSpec N A c).2 ++ out, ?_⟩
      rw [closureLoopSpec, if_neg hemp, hrec]

theorem loopSpec_some (N : Nat) (A : Mat) :
    ∃ m out, closureLoopSpec N A (N + 1) A = some (m, out) :=
  loopSpec_total N A N A (stabN N A)

theorem loopSpec_fuel_irrelevant (N : Nat) (A : Mat) (f : Nat) :
    closureLoopSpec N A (N + 1 + f) A = closureLoopSpec N A (N + 1) A :=
  loopSpec_fuel N A N A (stabN N A) (N + 1 + f) (by omega)

/-! ## A stable superset of the matrix contains every off-diagonal walk -/

theorem stable_complete {N : Nat} {A c : Mat}
    (hstab : ∀ u v w, u < N → v < N → w < N → c u v = true →
      A v w = true → u ≠ w → c u w = true)
    (hA : ∀ i j, i < N → j < N → A i j = true → c i j = true)
    {u w : Nat} (hwalk : NWalk N A u w) (hne : u ≠ w) : c u w = true := by
  obtain ⟨hu, xs, hxs, hwf, hend⟩ := hwalk
  have march : ∀ (ys : List Nat) (v : Nat), WalkFrom N A v ys → v < N →
      (v = u ∨ c u v = true) →
      (walkEnd v ys = u ∨ c u (walkEnd v ys) = true) := by
    intro ys v hwalkys
    induction hwalkys with
    | nil => intro hv h; exact h
    | @cons v x ys hx he hrest ih =>
      intro hv h
      rw [walkEnd_cons]
      apply ih hx
      by_cases hxu : x = u
      · exact Or.inl hxu
      · rcases h with rfl | hcv
        · exact Or.inr (hA v x hv hx he)
        · exact Or.inr (hstab u v x hu hv hx hcv he (fun hh => hxu hh.symm))
  rcases march xs u hwf hu (Or.inl rfl) with h | h
  · rw [hend] at h
    exact absurd h.symm hne
  · rwa [hend] at h

/-! ## Characterisation of the finished loop -/

theorem loopSpec_sound (N : Nat) (A : Mat) :
    ∀ (fuel : Nat) (c m : Mat) (out : List Edge),
      closureLoopSpec N A fuel c = some (m, out) →
      (∀ i j, i < N → j < N → c i j = true → NWalk N A i j) →
      (∀ p ∈ out, NWalk N A p.1 p.2) ∧
      (∀ i j, i < N → j < N → m i j = true → NWalk N A i j) := by
  intro fuel
  induction fuel with
  | zero => intro c m out h _; cases h
  | succ fuel ih =>
    intro c m out h hc
    rw [closureLoopSpec] at h
    by_cases hemp : (passSpec N A c).2 = []
    · rw [if_pos hemp] at h
      obtain ⟨rfl, rfl⟩ : c = m ∧ [] = out := by
        injection h with h
        exact ⟨congrArg Prod.fst h, congrArg Prod.snd h⟩
      exact ⟨by simp, hc⟩
    · rw [if_neg hemp] at h
      cases hrec : closureLoopSpec N A fuel (passSpec N A c).1 with
      | none => rw [hrec] at h; cases h
      | some pr =>
        obtain ⟨m1, out1⟩ := pr
        rw [hrec] at h
        obtain ⟨rfl, rfl⟩ : m1 = m ∧ (passSpec N A c).2 ++ out1 = out := by
          injection h with h
          exact ⟨congrArg Prod.fst h, congrArg Prod.snd h⟩
        have hpassSound : ∀ p ∈ (passSpec N A c).2, NWalk N A p.1 p.2 :=
          passSpec_sound N A c hc
        have hc1 : ∀ i j, i < N → j < N → (passSpec N A c).1 i j = true →
            NWalk N A i j := by
          intro i j hi hj hcell
          rcases (passSpec_cellChar N A c i j).mp hcell with hcell | hcell
          · exact hc i j hi hj hcell
          · exact hpassSound (i, j) hcell
        obtain ⟨ihout, ihm⟩ := ih _ _ _ hrec hc1
        refine ⟨?_, ihm⟩
        intro p hp
        rcases List.mem_append.mp hp with hm | hm
        · exact hpassSound p hm
        · exact ihout p hm

theorem final_cell (N : Nat) (A m : Mat) (out : List Edge)
    (hsome : closureLoopSpec N A (N + 1) A = some (m, out))
    (u w : Nat) (hu : u < N) (hw : w < N) :
    m u w = true ↔ (A u w = true ∨ (u ≠ w ∧ NWalk N A u w)) := by
  obtain ⟨hchar, hnodup, hshape, hstable⟩ :=
    loopSpec_char N A (N + 1) A m out hsome
  have hAsub : ∀ i j, i < N → j < N → A i j = true → m i j = true :=
    fun i j _ _ h => (hchar i j).mpr (Or.inl h)
  have hsound := (loopSpec_sound N A (N + 1) A m out hsome
    (fun i j hi hj h => NWalk.edge hi hj h)).2
  constructor
  · intro h
    by_cases hne : u = w
    · subst hne
      left
      rcases (hchar u u).mp h with h | h
      · exact h
      · exact absurd rfl (hshape (u, u) h).2.2.1
    · exact Or.inr ⟨hne, hsound u w hu hw h⟩
  · rintro (h | ⟨hne, hwalk⟩)
    · exact hAsub u w hu hw h
    · exact stable_complete (passSpec_stable_of_empty N A m hstable)
        hAsub hwalk hne

/-! ## Membership in the emitted sequence -/

theorem emitInitSpec_nodup (N : Nat) (A : Mat) : (emitInitSpec N A).Nodup :=
  (pairsLex_nodup N).filter _

theorem mem_emitInitSpec {N : Nat} {A : Mat} {u w : Nat} :
    (u, w) ∈ emitInitSpec N A ↔ (u < N ∧ w < N ∧ A u w = true) := by
  rw [emitInitSpec, List.mem_filter, mem_pairsLex]
  constructor
  · rintro ⟨⟨h1, h2⟩, h3⟩
    exact ⟨h1, h2, h3⟩
  · rintro ⟨h1, h2, h3⟩
    exact ⟨⟨h1, h2⟩, h3⟩

theorem loopOut_eq (N : Nat) (A : Mat) {m : Mat} {out : List Edge}
    (hsome : closureLoopSpec N A (N + 1) A = some (m, out)) :
    loopOut N A = out := by
  rw [loopOut, closureLoop_eq, hsome]
  rfl

theorem mem_loopOut (N : Nat) (A : Mat) (u w : Nat) :
    (u, w) ∈ loopOut N A ↔
      (u < N ∧ w < N ∧ u ≠ w ∧ A u w = false ∧ NWalk N A u w) := by
  obtain ⟨m, out, hsome⟩ := loopSpec_some N A
  obtain ⟨hchar, hnodup, hshape, hstable⟩ :=
    loopSpec_char N A (N + 1) A m out hsome
  rw [loopOut_eq N A hsome]
  constructor
  · intro h
    obtain ⟨h1, h2, h3, h4⟩ := hshape (u, w) h
    have hm : m u w = true := (hchar u w).mpr (Or.inr h)
    rcases (final_cell N A m out hsome u w h1 h2).mp hm with hA | hw
    · rw [hA] at h4
      cases h4
    · exact ⟨h1, h2, h3, h4, hw.2⟩
  · rintro ⟨h1, h2, h3, h4, h5⟩
    have hm : m u w = true :=
      (final_cell N A m out hsome u w h1 h2).mpr (Or.inr ⟨h3, h5⟩)
    rcases (hchar u w).mp hm with hA | hmem
    · rw [h4] at hA
      cases hA
    · exact hmem

theorem mem_calculateTransitiveClosure (N : Nat) (A : Mat) (u w : Nat) :
    (u, w) ∈ calculateTransitiveClosure N A ↔
      (u < N ∧ w < N ∧
        ((u ≠ w ∧ NWalk N A u w) ∨ (u = w ∧ A u u = true))) := by
  rw [calculateTransitiveClosure, emitInit_eq, List.mem_append,
    mem_emitInitSpec, mem_loopOut]
  constructor
  · rintro (⟨h1, h2, h3⟩ | ⟨h1, h2, h3, h4, h5⟩)
    · by_cases hne : u = w
      · subst hne
        exact ⟨h1, h2, Or.inr ⟨rfl, h3⟩⟩
      · exact ⟨h1, h2, Or.inl ⟨hne, NWalk.edge h1 h2 h3⟩⟩
    · exact ⟨h1, h2, Or.inl ⟨h3, h5⟩⟩
  · rintro ⟨h1, h2, hcase⟩
    rcases hcase with ⟨hne, hwalk⟩ | ⟨rfl, hA⟩
    · cases hA : A u w
      · exact Or.inr ⟨h1, h2, hne, rfl, hwalk⟩
      · exact Or.inl ⟨h1, h2, rfl⟩
    · exact Or.inl ⟨h1, h2, hA⟩

theorem calculateTransitiveClosure_nodup (N : Nat) (A : Mat) :
    (calculateTransitiveClosure N A).Nodup := by
  obtain ⟨m, out, hsome⟩ := loopSpec_some N A
  obtain ⟨hchar, hnodup, hshape, _⟩ :=
    loopSpec_char N A (N + 1) A m out hsome
  rw [calculateTransitiveClosure, emitInit_eq, loopOut_eq N A hsome]
  refine List.Nodup.append (emitInitSpec_nodup N A) hnodup ?_
  intro p hp1 hp2
  obtain ⟨u, w⟩ := p
  obtain ⟨_, _, h3⟩ := mem_emitInitSpec.mp hp1
  have h4 := (hshape (u, w) hp2).2.2.2
  rw [h3] at h4
  cases h4

theorem diag_not_mem_loopOut (N : Nat) (A : Mat) (u : Nat) :
    (u, u) ∉ loopOut N A := by
  intro h
  exact ((mem_loopOut N A u u).mp h).2.2.1 rfl

theorem count_eq_one_of_nodup_mem {p : Edge} {l : List Edge}
    (hn : l.Nodup) (hm : p ∈ l) : l.count p = 1 := by
  induction l with
  | nil => cases hm
  | cons b t ih =>
    obtain ⟨hb, ht⟩ := List.nodup_cons.mp hn
    rcases List.mem_cons.mp hm with rfl | hp
    · rw [List.count_cons, List.count_eq_zero.mpr hb]
      simp
    · have hbp : ¬(b == p) = true := by
        intro h
        rw [beq_iff_eq] at h
        rw [← h] at hp
        exact hb hp
      rw [List.count_cons, if_neg hbp]
      simp [ih ht hp]

theorem count_le_one_of_nodup {p : Edge} {l : List Edge}
    (hn : l.Nodup) : l.count p ≤ 1 := by
  induction l with
  | nil => simp
  | cons b t ih =>
    obtain ⟨hb, ht⟩ := List.nodup_cons.mp hn
    by_cases hbp : (b == p) = true
    · rw [beq_iff_eq] at hbp
      subst hbp
      rw [List.count_cons, List.count_eq_zero.mpr hb]
      simp
    · rw [List.count_cons, if_neg hbp]
      simp [ih ht]

theorem count_diag_calc (N : Nat) (A : Mat) (u : Nat) (hu : u < N)
    (hA : A u u = true) :
    (calculateTransitiveClosure N A).count (u, u) = 1 := by
  have hmem : (u, u) ∈ calculateTransitiveClosure N A :=
    (mem_calculateTransitiveClosure N A u u).mpr ⟨hu, hu, Or.inr ⟨rfl, hA⟩⟩
  exact count_eq_one_of_nodup_mem (calculateTransitiveClosure_nodup N A) hmem

theorem closureLoop_mono (N : Nat) (A : Mat) (fuel : Nat) (c m : Mat)
    (lout : List Edge) (h : closureLoop N A fuel c = some (m, lout))
    (i j : Nat) (hc : c i j = true) : m i j = true := by
  rw [closureLoop_eq] at h
  exact ((loopSpec_char N A fuel c m lout h).1 i j).mpr (Or.inl hc)


/-! ## Claim C1 -/

/-- C1 as stated is false: on the two-vertex cycle there is a nonempty walk
from 0 back to 0 (namely 0 -> 1 -> 0), yet the pair (0, 0) is never emitted
by the closure computation, because the fixpoint step refuses self-pairs and
the initial pass only emits cells of the original matrix. -/
theorem c1_counterexample :
    NWalk 2 matCycle2 0 0 ∧
      (0, 0) ∉ calculateTransitiveClosure 2 matCycle2 := by
  constructor
  · refine ⟨by omega, [1, 0], by simp, ?_, rfl⟩
    exact WalkFrom.cons (by omega) (by decide)
      (WalkFrom.cons (by omega) (by decide) (WalkFrom.nil 0))
  · decide

/-- C1 (amended): a pair `(u, w)` is emitted by the transitive-closure
computation on `A` iff both vertices are in range and either `u ≠ w` and a
nonempty directed walk leads from `u` to `w`, or `u = w` and the original
matrix has the self-loop `A[u][u] = 1`.  (Self-pairs reachable only through
a longer cycle are never emitted.) -/
theorem c1_closure_iff_walk (N : Nat) (A : Mat) (u w : Nat) :
    (u, w) ∈ calculateTransitiveClosure N A ↔
      (u < N ∧ w < N ∧
        ((u ≠ w ∧ NWalk N A u w) ∨ (u = w ∧ A u u = true))) :=
  mem_calculateTransitiveClosure N A u w

/-! ## Claim C3 -/

/-- C3: the fixpoint step never adds a self-pair `(u, u)`, and when the
original adjacency matrix has `A[u][u] = 1` the pair `(u, u)` is emitted
exactly once over the whole run (during the initial pass). -/
theorem c3_diagonal (N : Nat) (A : Mat) :
    (∀ u, (u, u) ∉ loopOut N A) ∧
    (∀ u, u < N → A u u = true →
      (calculateTransitiveClosure N A).count (u, u) = 1) :=
  ⟨fun u => diag_not_mem_loopOut N A u,
   fun u hu hA => count_diag_calc N A u hu hA⟩

theorem c3_diagonal_witness :
    ((0, 0) ∉ loopOut 1 matFull) ∧
      (calculateTransitiveClosure 1 matFull).count (0, 0) = 1 :=
  ⟨(c3_diagonal 1 matFull).1 0, (c3_diagonal 1 matFull).2 0 (by decide) rfl⟩

/-! ## Claim C4 -/

/-- C4: the closure matrix is monotonically non-decreasing: a cell that is
true stays true across a single candidate step, across any sequence of steps
of a round, across a whole round, and across the whole fixpoint loop. -/
theorem c4_monotone (N : Nat) (A prev c : Mat) (out : List Edge) (i j : Nat)
    (h : c i j = true) :
    (∀ t, (stepSpec A prev (c, out) t).1 i j = true) ∧
    (∀ tl : List (Nat × Nat × Nat),
      (tl.foldl (stepSpec A prev) (c, out)).1 i j = true) ∧
    (passRun N A c).1 i j = true ∧
    (∀ fuel m lout, closureLoop N A fuel c = some (m, lout) →
      m i j = true) := by
  refine ⟨fun t => stepSpec_mono h,
    fun tl => foldPass_mono tl (c, out) i j h, ?_, ?_⟩
  · rw [passRun_eq]
    exact passSpec_mono N A c i j h
  · intro fuel m lout hl
    exact closureLoop_mono N A fuel c m lout hl i j h

theorem c4_monotone_witness :
    (∀ t, (stepSpec matFull matFull (matFull, ([] : List Edge)) t).1 0 0 =
      true) ∧
    (∀ tl : List (Nat × Nat × Nat),
      (tl.foldl (stepSpec matFull matFull) (matFull, [])).1 0 0 = true) ∧
    (passRun 1 matFull matFull).1 0 0 = true ∧
    (∀ fuel m lout, closureLoop 1 matFull fuel matFull = some (m, lout) →
      m 0 0 = true) :=
  c4_monotone 1 matFull matFull matFull [] 0 0 rfl

/-! ## Claim C6 -/

/-- C6: the fixpoint loop terminates on every matrix, within at most `N`
rounds: after running the round body `N` times from the copied adjacency
matrix, one more round emits (adds) nothing; consequently fuel `N + 1`
suffices, any surplus fuel leaves the result unchanged, and the loop
completes (does not exhaust its fuel). -/
theorem c6_termination (N : Nat) (A : Mat) :
    (passRun N A (passIter N A N)).2 = [] ∧
    (∀ f, closureLoop N A (N + 1 + f) A = closureLoop N A (N + 1) A) ∧
    (∃ m out, closureLoop N A (N + 1) A = some (m, out)) := by
  refine ⟨?_, ?_, ?_⟩
  · rw [passRun_eq, passIter_eq]
    exact stabN N A
  · intro f
    rw [closureLoop_eq, closureLoop_eq]
    exact loopSpec_fuel_irrelevant N A f
  · obtain ⟨m, out, h⟩ := loopSpec_some N A
    exact ⟨m, out, by rw [closureLoop_eq]; exact h⟩

/-! ## Claim C7 -/

/-- C7: the emitted sequence is exactly the one prescribed by the spec: the
true cells of the copied matrix in row-major order, followed round by round
by the newly discovered pairs in ascending `(u, v, w)` scan order; and the
sequence is a deterministic function of the matrix (two runs on extensionally
equal matrices emit the identical sequence). -/
theorem c7_emission_order (N : Nat) (A : Mat) :
    calculateTransitiveClosure N A = closureEmitSpec N A ∧
    (∀ B C : Mat, (∀ i j, B i j = C i j) →
      calculateTransitiveClosure N B = calculateTransitiveClosure N C) := by
  refine ⟨calculateTransitiveClosure_eq N A, ?_⟩
  intro B C h
  have hBC : B = C := funext fun i => funext fun j => h i j
  rw [hBC]

theorem c7_emission_order_witness :
    calculateTransitiveClosure 2 matFull =
      calculateTransitiveClosure 2 matFullAlt :=
  (c7_emission_order 2 matFull).2 matFull matFullAlt
    (fun i j => by simp [matFull, matFullAlt])

/-! ## Claim C10 -/

/-- C10: the closure computation emits each pair at most once over the whole
run: the emitted sequence contains no duplicate pair. -/
theorem c10_no_duplicate (N : Nat) (A : Mat) (p : Edge) :
    (calculateTransitiveClosure N A).count p ≤ 1 :=
  count_le_one_of_nodup (calculateTransitiveClosure_nodup N A)


/-! ### The matrix is threaded through unchanged -/

theorem tryNeighbors_matrix {source : Nat}
    {rec : Nat → Mat → (Nat → Bool) → (Nat → Nat) → Option DfsRes}
    (hrec : ∀ i m v p r, rec i m v p = some r → r.2.2.1 = m) :
    ∀ (l : List Nat) (m : Mat) (v : Nat → Bool) (p : Nat → Nat) (r : DfsRes),
      tryNeighbors source rec l m v p = some r → r.2.2.1 = m := by
  intro l
  induction l with
  | nil =>
    intro m v p r h
    rw [tryNeighbors] at h
    injection h with h
    rw [← h]
  | cons i rest ih =>
    intro m v p r h
    rw [tryNeighbors] at h
    split at h
    · cases hres : rec i m v p with
      | none => rw [hres] at h; cases h
      | some res =>
        obtain ⟨b, pr, m2, v2, p2⟩ := res
        rw [hres] at h
        cases b with
        | true =>
          injection h with h
          rw [← h]
          exact hrec i m v p _ hres
        | false =>
          have hm2 : m2 = m := hrec i m v p _ hres
          rw [hm2] at h
          exact ih m v2 p2 r h
    · exact ih m v p r h

theorem findPathF_matrix (N destination : Nat) :
    ∀ (fuel source : Nat) (mat : Mat) (visited : Nat → Bool)
      (path : Nat → Nat) (pathIndex : Nat) (r : DfsRes),
      findPathF N destination fuel source mat visited path pathIndex =
        some r → r.2.2.1 = mat := by
  intro fuel
  induction fuel with
  | zero => intro source mat visited path pathIndex r h; cases h
  | succ fuel ih =>
    intro source mat visited path pathIndex r h
    rw [findPathF] at h
    by_cases hsd : source = destination
    · rw [if_pos hsd] at h
      injection h with h
      rw [← h]
    · rw [if_neg hsd] at h
      cases htry : tryNeighbors source
          (fun i m v p => findPathF N destination fuel i m v p (pathIndex + 1))
          (List.range N) mat
          (fun j => if j = source then true else visited j)
          (fun j => if j = pathIndex then source else path j) with
      | none => rw [htry] at h; cases h
      | some res =>
        obtain ⟨b, pr, m2, v2, p2⟩ := res
        have hm2 : m2 = mat :=
          tryNeighbors_matrix (fun i m v p r hr => ih i m v p _ r hr)
            (List.range N) mat _ _ _ htry
        rw [htry] at h
        cases b with
        | true =>
          injection h with h
          rw [← h]
          exact hm2
        | false =>
          injection h with h
          rw [← h]
          exact hm2

/-! ### Failed calls restore the visited array -/

theorem tryNeighbors_restore {source : Nat}
    {rec : Nat → Mat → (Nat → Bool) → (Nat → Nat) → Option DfsRes}
    (hrec : ∀ i m v p pr m2 v2 p2, v i = false →
      rec i m v p = some (false, pr, m2, v2, p2) → ∀ j, v2 j = v j) :
    ∀ (l : List Nat) (m : Mat) (v : Nat → Bool) (p : Nat → Nat)
      (pr : List Nat) (m2 : Mat) (v2 : Nat → Bool) (p2 : Nat → Nat),
      tryNeighbors source rec l m v p = some (false, pr, m2, v2, p2) →
      ∀ j, v2 j = v j := by
  intro l
  induction l with
  | nil =>
    intro m v p pr m2 v2 p2 h j
    rw [tryNeighbors] at h
    injection h with h
    have : v2 = v := congrArg (fun r => r.2.2.2.1) h.symm
    rw [this]
  | cons i rest ih =>
    intro m v p pr m2 v2 p2 h j
    rw [tryNeighbors] at h
    split at h
    case isTrue hguard =>
      cases hres : rec i m v p with
      | none => rw [hres] at h; cases h
      | some res =>
        obtain ⟨b, pr1, m1, v1, p1⟩ := res
        rw [hres] at h
        cases b with
        | true =>
          injection h with h
          exact absurd (congrArg (fun r => r.1) h) (by simp)
        | false =>
          have hrestore : ∀ j, v1 j = v j :=
            hrec i m v p pr1 m1 v1 p1 hguard.1 hres
          have hv1 : v1 = v := funext hrestore
          rw [hv1] at h
          exact ih m1 v p1 pr m2 v2 p2 h j
    case isFalse => exact ih m v p pr m2 v2 p2 h j

theorem findPathF_restore (N destination : Nat) :
    ∀ (fuel source : Nat) (mat : Mat) (visited : Nat → Bool)
      (path : Nat → Nat) (pathIndex : Nat) (pr : List Nat) (m2 : Mat)
      (v2 : Nat → Bool) (p2 : Nat → Nat),
      findPathF N destination fuel source mat visited path pathIndex =
        some (false, pr, m2, v2, p2) →
      ∀ j, v2 j = if j = source then false else visited j := by
  intro fuel
  induction fuel with
  | zero => intro source mat visited path pathIndex pr m2 v2 p2 h; cases h
  | succ fuel ih =>
    intro source mat visited path pathIndex pr m2 v2 p2 h j
    rw [findPathF] at h
    by_cases hsd : source = destination
    · rw [if_pos hsd] at h
      injection h with h
      exact absurd (congrArg (fun r => r.1) h) (by simp)
    · rw [if_neg hsd] at h
      cases htry : tryNeighbors source
          (fun i m v p => findPathF N destination fuel i m v p (pathIndex + 1))
          (List.range N) mat
          (fun j => if j = source then true else visited j)
          (fun j => if j = pathIndex then source else path j) with
      | none => rw [htry] at h; cases h
      | some res =>
        obtain ⟨b, pr1, m1, v1, p1⟩ := res
        rw [htry] at h
        cases b with
        | true =>
          injection h with h
          exact absurd (congrArg (fun r => r.1) h) (by simp)
        | false =>
          have hchild : ∀ i m v p pr m2 v2 p2, v i = false →
              findPathF N destination fuel i m v p (pathIndex + 1) =
                some (false, pr, m2, v2, p2) → ∀ j, v2 j = v j := by
            intro i m v p pr0 m0 v0 p0 hvi h0 j0
            rw [ih i m v p (pathIndex + 1) pr0 m0 v0 p0 h0 j0]
            by_cases hj : j0 = i
            · rw [if_pos hj, hj, hvi]
            · rw [if_neg hj]
          have hv1 : ∀ j, v1 j =
              (fun j => if j = source then true else visited j) j :=
            tryNeighbors_restore hchild (List.range N) mat _ _ pr1 m1 v1 p1
              htry
          injection h with h
          have hv2 : v2 = fun j => if j = source then false else v1 j :=
            (congrArg (fun r => r.2.2.2.1) h).symm
          have hv2j : v2 j = if j = source then false else v1 j :=
            congrFun hv2 j
          rw [hv2j]
          by_cases hj : j = source
          · rw [if_pos hj, if_pos hj]
          · rw [if_neg hj, if_neg hj]
            have hv1j : v1 j = if j = source then true else visited j :=
              hv1 j
            rw [hv1j, if_neg hj]

/-! ### The depth budget `N + 1` suffices -/

theorem length_filter_le_of_imp {α : Type _} (l : List α) (p q : α → Bool)
    (h : ∀ x ∈ l, p x = true → q x = true) :
    (l.filter p).length ≤ (l.filter q).length := by
  induction l with
  | nil => simp
  | cons a t ih =>
    have ht := fun x hx => h x (List.mem_cons_of_mem _ hx)
    by_cases hpa : p a = true
    · have hqa := h a (by simp) hpa
      rw [List.filter_cons, if_pos hpa, List.filter_cons, if_pos hqa]
      simpa using ih ht
    · rw [List.filter_cons, if_neg hpa]
      by_cases hqa : q a = true
      · rw [List.filter_cons, if_pos hqa]
        exact le_trans (ih ht) (by simp)
      · rw [List.filter_cons, if_neg hqa]
        exact ih ht

theorem filter_mark_length {s : Nat} {visited : Nat → Bool}
    (hv : visited s = false) :
    ∀ (l : List Nat), l.Nodup → s ∈ l →
      (l.filter
        (fun i => (if i = s then true else visited i) = false)).length + 1 =
      (l.filter (fun i => visited i = false)).length := by
  intro l
  induction l with
  | nil => intro _ h; cases h
  | cons a t ih =>
    intro hnd hmem
    obtain ⟨ha, ht⟩ := List.nodup_cons.mp hnd
    by_cases has : a = s
    · subst has
      have hagree : ∀ x ∈ t,
          (decide ((if x = a then true else visited x) = false)) =
          (decide (visited x = false)) := by
        intro x hx
        have hxa : x ≠ a := fun h => ha (h ▸ hx)
        rw [if_neg hxa]
      rw [List.filter_cons, List.filter_cons,
        if_neg (by simp), if_pos (by simp [hv]),
        List.filter_congr hagree]
      simp
    · have hst : s ∈ t := by
        rcases List.mem_cons.mp hmem with h | h
        · exact absurd h.symm has
        · exact h
      have hih := ih ht hst
      rw [List.filter_cons, List.filter_cons]
      by_cases hva : visited a = false
      · have h1 : (if a = s then true else visited a) = false := by
          rw [if_neg has]
          exact hva
        rw [if_pos (by simp [h1]), if_pos (by simp [hva])]
        simp only [List.length_cons]
        omega
      · have hva2 : visited a = true := by
          cases hq : visited a
          · exact absurd hq hva
          · rfl
        rw [if_neg (by simp [has, hva2]), if_neg (by simp [hva2])]
        exact hih

theorem unvisN_mark {N : Nat} {visited : Nat → Bool} {s : Nat}
    (hs : s < N) (hv : visited s = false) :
    unvisN N (fun j => if j = s then true else visited j) + 1 =
      unvisN N visited :=
  filter_mark_length hv (List.range N) (List.nodup_range N)
    (List.mem_range.mpr hs)

theorem unvisN_mark_le (N : Nat) (visited : Nat → Bool) (s : Nat) :
    unvisN N (fun j => if j = s then true else visited j) ≤
      unvisN N visited := by
  apply length_filter_le_of_imp
  intro x _ hx
  have hx2 : (if x = s then true else visited x) = false :=
    of_decide_eq_true hx
  apply decide_eq_true
  by_cases hxs : x = s
  · rw [if_pos hxs] at hx2
    cases hx2
  · rw [if_neg hxs] at hx2
    exact hx2

theorem unvisN_pos {N : Nat} {visited : Nat → Bool} {s : Nat}
    (hs : s < N) (hv : visited s = false) : 0 < unvisN N visited := by
  have hmem : s ∈ (List.range N).filter (fun i => visited i = false) :=
    List.mem_filter.mpr ⟨List.mem_range.mpr hs, by simp [hv]⟩
  rw [unvisN]
  exact List.length_pos.mpr (fun h => by rw [h] at hmem; cases hmem)

theorem tryNeighbors_total {N source : Nat}
    {rec : Nat → Mat → (Nat → Bool) → (Nat → Nat) → Option DfsRes}
    {mat : Mat} {v : Nat → Bool}
    (hrecm : ∀ i m vv p r, rec i m vv p = some r → r.2.2.1 = m)
    (hrecr : ∀ i m vv p pr m2 v2 p2, vv i = false →
      rec i m vv p = some (false, pr, m2, v2, p2) → ∀ j, v2 j = vv j)
    (hrect : ∀ i p, i < N → v i = false → (rec i mat v p).isSome = true) :
    ∀ (l : List Nat), (∀ x ∈ l, x < N) →
      ∀ p, (tryNeighbors source rec l mat v p).isSome = true := by
  intro l
  induction l with
  | nil => intro _ p; rw [tryNeighbors]; rfl
  | cons i rest ih =>
    intro hl p
    rw [tryNeighbors]
    split
    case isTrue hguard =>
      cases hres : rec i mat v p with
      | none =>
        have hsome := hrect i p (hl i (by simp)) hguard.1
        rw [hres] at hsome
        cases hsome
      | some res =>
        obtain ⟨b, pr1, m1, v1, p1⟩ := res
        cases b with
        | true => rfl
        | false =>
          have hm1 : m1 = mat := hrecm i mat v p _ hres
          have hv1 : v1 = v :=
            funext (hrecr i mat v p pr1 m1 v1 p1 hguard.1 hres)
          show (tryNeighbors source rec rest m1 v1 p1).isSome = true
          rw [hm1, hv1]
          exact ih (fun x hx => hl x (List.mem_cons_of_mem _ hx)) p1
    case isFalse =>
      exact ih (fun x hx => hl x (List.mem_cons_of_mem _ hx)) p

theorem findPathF_total (N destination : Nat) :
    ∀ (fuel source : Nat) (mat : Mat) (visited : Nat → Bool)
      (path : Nat → Nat) (pathIndex : Nat),
      ((source < N ∧ visited source = false ∧ unvisN N visited ≤ fuel) ∨
        unvisN N visited < fuel) →
      (findPathF N destination fuel source mat visited path
        pathIndex).isSome = true := by
  intro fuel
  induction fuel with
  | zero =>
    intro source mat visited path pathIndex H
    exfalso
    rcases H with ⟨hs, hv, hle⟩ | hlt
    · have := unvisN_pos hs hv
      omega
    · omega
  | succ fuel ih =>
    intro source mat visited path pathIndex H
    rw [findPathF]
    by_cases hsd : source = destination
    · rw [if_pos hsd]
      rfl
    · rw [if_neg hsd]
      have hunv1 :
          unvisN N (fun j => if j = source then true else visited j) ≤
            fuel := by
        rcases H with ⟨hs, hv, hle⟩ | hlt
        · have := unvisN_mark hs hv
          omega
        · have := unvisN_mark_le N visited source
          omega
      have htry :
          (tryNeighbors source
            (fun i m v p =>
              findPathF N destination fuel i m v p (pathIndex + 1))
            (List.range N) mat
            (fun j => if j = source then true else visited j)
            (fun j => if j = pathIndex then source else path j)).isSome =
          true := by
        apply tryNeighbors_total
        · intro i m vv p r hr
          exact findPathF_matrix N destination fuel i m vv p _ r hr
        · intro i m vv p pr m2 v2 p2 hvi hr j
          rw [findPathF_restore N destination fuel i m vv p _ pr m2 v2 p2
            hr j]
          by_cases hj : j = i
          · rw [if_pos hj, hj, hvi]
          · rw [if_neg hj]
        · intro i p hi hvi
          exact ih i mat _ p (pathIndex + 1) (Or.inl ⟨hi, hvi, hunv1⟩)
        · intro x hx
          exact List.mem_range.mp hx
      cases htryres : tryNeighbors source
          (fun i m v p => findPathF N destination fuel i m v p (pathIndex + 1))
          (List.range N) mat
          (fun j => if j = source then true else visited j)
          (fun j => if j = pathIndex then source else path j) with
      | none =>
        rw [htryres] at htry
        cases htry
      | some res =>
        obtain ⟨b, pr1, m1, v1, p1⟩ := res
        cases b with
        | true => rfl
        | false => rfl


theorem tryNeighbors_success {source : Nat}
    {rec : Nat → Mat → (Nat → Bool) → (Nat → Nat) → Option DfsRes}
    {mat : Mat}
    (hrecm : ∀ i m vv p r, rec i m vv p = some r → r.2.2.1 = m)
    (hrecr : ∀ i m vv p pr m2 v2 p2, vv i = false →
      rec i m vv p = some (false, pr, m2, v2, p2) → ∀ j, v2 j = vv j) :
    ∀ (l : List Nat) (v : Nat → Bool) (p : Nat → Nat) (pr : List Nat)
      (m2 : Mat) (v2 : Nat → Bool) (p2 : Nat → Nat),
      tryNeighbors source rec l mat v p = some (true, pr, m2, v2, p2) →
      ∃ i ∈ l, ∃ p3, v i = false ∧ mat source i = true ∧
        rec i mat v p3 = some (true, pr, m2, v2, p2) := by
  intro l
  induction l with
  | nil =>
    intro v p pr m2 v2 p2 h
    rw [tryNeighbors] at h
    injection h with h
    exact absurd (congrArg (fun r => r.1) h) (by simp)
  | cons i rest ih =>
    intro v p pr m2 v2 p2 h
    rw [tryNeighbors] at h
    split at h
    case isTrue hguard =>
      cases hres : rec i mat v p with
      | none => rw [hres] at h; cases h
      | some res =>
        obtain ⟨b, pr1, m1, v1, p1⟩ := res
        rw [hres] at h
        cases b with
        | true =>
          injection h with h
          obtain ⟨h1, h2, h3, h4, h5⟩ : pr1 = pr ∧ m1 = m2 ∧ v1 = v2 ∧
              p1 = p2 ∧ True := by
            refine ⟨congrArg (fun r => r.2.1) h,
              congrArg (fun r => r.2.2.1) h,
              congrArg (fun r => r.2.2.2.1) h,
              congrArg (fun r => r.2.2.2.2) h, trivial⟩
          subst h1; subst h2; subst h3; subst h4
          exact ⟨i, by simp, p, hguard.1, hguard.2, hres⟩
        | false =>
          have hm1 : m1 = mat := hrecm i mat v p _ hres
          have hv1 : v1 = v :=
            funext (hrecr i mat v p pr1 m1 v1 p1 hguard.1 hres)
          rw [hm1, hv1] at h
          obtain ⟨i2, hi2, p3, hg1, hg2, hrec2⟩ :=
            ih v p1 pr m2 v2 p2 h
          exact ⟨i2, List.mem_cons_of_mem _ hi2, p3, hg1, hg2, hrec2⟩
    case isFalse =>
      obtain ⟨i2, hi2, p3, hg1, hg2, hrec2⟩ := ih v p pr m2 v2 p2 h
      exact ⟨i2, List.mem_cons_of_mem _ hi2, p3, hg1, hg2, hrec2⟩

theorem findPathF_sound (N destination : Nat) :
    ∀ (fuel source : Nat) (mat : Mat) (visited : Nat → Bool)
      (path : Nat → Nat) (pathIndex : Nat) (pr : List Nat) (m2 : Mat)
      (v2 : Nat → Bool) (p2 : Nat → Nat),
      findPathF N destination fuel source mat visited path pathIndex =
        some (true, pr, m2, v2, p2) →
      CanReach N mat destination visited source := by
  intro fuel
  induction fuel with
  | zero => intro source mat visited path pathIndex pr m2 v2 p2 h; cases h
  | succ fuel ih =>
    intro source mat visited path pathIndex pr m2 v2 p2 h
    rw [findPathF] at h
    by_cases hsd : source = destination
    · subst hsd
      exact CanReach.found visited
    · rw [if_neg hsd] at h
      cases htry : tryNeighbors source
          (fun i m v p => findPathF N destination fuel i m v p (pathIndex + 1))
          (List.range N) mat
          (fun j => if j = source then true else visited j)
          (fun j => if j = pathIndex then source else path j) with
      | none => rw [htry] at h; cases h
      | some res =>
        obtain ⟨b, pr1, m1, v1, p1⟩ := res
        rw [htry] at h
        cases b with
        | false =>
          injection h with h
          exact absurd (congrArg (fun r => r.1) h) (by simp)
        | true =>
          injection h with h
          obtain ⟨i, hil, p3, hg1, hg2, hrec⟩ :=
            tryNeighbors_success
              (fun i m vv p r hr =>
                findPathF_matrix N destination fuel i m vv p _ r hr)
              (fun i m vv p pr0 m0 v0 p0 hvi hr j => by
                rw [findPathF_restore N destination fuel i m vv p _ pr0 m0
                  v0 p0 hr j]
                by_cases hj : j = i
                · rw [if_pos hj, hj, hvi]
                · rw [if_neg hj])
              (List.range N) _ _ pr1 m1 v1 p1 htry
          have hchild : CanReach N mat destination
              (fun j => if j = source then true else visited j) i :=
            ih i mat _ p3 (pathIndex + 1) pr1 m1 v1 p1 hrec
          have hg1i : i ≠ source ∧ visited i = false := by
            constructor
            · intro hji
              rw [if_pos hji] at hg1
              cases hg1
            · by_cases hji : i = source
              · rw [if_pos hji] at hg1
                cases hg1
              · rw [if_neg hji] at hg1
                exact hg1
          exact CanReach.step (List.mem_range.mp hil) hg2 hg1i.1 hg1i.2
            hchild

theorem tryNeighbors_complete {N source : Nat}
    {rec : Nat → Mat → (Nat → Bool) → (Nat → Nat) → Option DfsRes}
    {mat : Mat} {v : Nat → Bool}
    (hrecm : ∀ i m vv p r, rec i m vv p = some r → r.2.2.1 = m)
    (hrecr : ∀ i m vv p pr m2 v2 p2, vv i = false →
      rec i m vv p = some (false, pr, m2, v2, p2) → ∀ j, v2 j = vv j)
    (hrect : ∀ i p, i < N → v i = false → (rec i mat v p).isSome = true)
    {i0 : Nat}
    (hsucc : ∀ p, ∃ pr m2 v2 p2,
      rec i0 mat v p = some (true, pr, m2, v2, p2))
    (hg1 : v i0 = false) (hg2 : mat source i0 = true) :
    ∀ (l : List Nat), (∀ x ∈ l, x < N) → i0 ∈ l → ∀ p,
      ∃ pr m2 v2 p2, tryNeighbors source rec l mat v p =
        some (true, pr, m2, v2, p2) := by
  intro l
  induction l with
  | nil => intro _ h; cases h
  | cons a rest ih =>
    intro hl hmem p
    rw [tryNeighbors]
    by_cases hguard : v a = false ∧ mat source a = true
    · rw [if_pos hguard]
      cases hres : rec a mat v p with
      | none =>
        have hsome := hrect a p (hl a (by simp)) hguard.1
        rw [hres] at hsome
        cases hsome
      | some res =>
        obtain ⟨b, pr1, m1, v1, p1⟩ := res
        cases b with
        | true => exact ⟨pr1, m1, v1, p1, rfl⟩
        | false =>
          have hane : a ≠ i0 := by
            intro haeq
            subst haeq
            obtain ⟨pr0, m0, v0, p0, h0⟩ := hsucc p
            rw [hres] at h0
            injection h0 with h0
            exact absurd (congrArg (fun r => r.1) h0) (by simp)
          have hm1 : m1 = mat := hrecm a mat v p _ hres
          have hv1 : v1 = v :=
            funext (hrecr a mat v p pr1 m1 v1 p1 hguard.1 hres)
          have hmem2 : i0 ∈ rest := by
            rcases List.mem_cons.mp hmem with h | h
            · exact absurd h.symm hane
            · exact h
          show ∃ pr m2 v2 p2,
            tryNeighbors source rec rest m1 v1 p1 =
              some (true, pr, m2, v2, p2)
          rw [hm1, hv1]
          exact ih (fun x hx => hl x (List.mem_cons_of_mem _ hx)) hmem2 p1
    · rw [if_neg hguard]
      have hane : a ≠ i0 := by
        intro haeq
        subst haeq
        exact hguard ⟨hg1, hg2⟩
      have hmem2 : i0 ∈ rest := by
        rcases List.mem_cons.mp hmem with h | h
        · exact absurd h.symm hane
        · exact h
      exact ih (fun x hx => hl x (List.mem_cons_of_mem _ hx)) hmem2 p

theorem findPathF_complete (N destination : Nat) :
    ∀ (fuel source : Nat) (mat : Mat) (visited : Nat → Bool)
      (path : Nat → Nat) (pathIndex : Nat),
      CanReach N mat destination visited source →
      ((source < N ∧ visited source = false ∧ unvisN N visited ≤ fuel) ∨
        unvisN N visited < fuel) →
      ∃ pr m2 v2 p2,
        findPathF N destination fuel source mat visited path pathIndex =
          some (true, pr, m2, v2, p2) := by
  intro fuel
  induction fuel with
  | zero =>
    intro source mat visited path pathIndex hreach H
    exfalso
    rcases H with ⟨hs, hv, hle⟩ | hlt
    · have := unvisN_pos hs hv
      omega
    · omega
  | succ fuel ih =>
    intro source mat visited path pathIndex hreach H
    rw [findPathF]
    by_cases hsd : source = destination
    · rw [if_pos hsd]
      exact ⟨_, _, _, _, rfl⟩
    · rw [if_neg hsd]
      cases hreach with
      | found => exact absurd rfl hsd
      | @step V s i hi he hne hun hchild =>
        have hunv1 :
            unvisN N (fun j => if j = source then true else visited j) ≤
              fuel := by
          rcases H with ⟨hs, hv, hle⟩ | hlt
          · have := unvisN_mark hs hv
            omega
          · have := unvisN_mark_le N visited source
            omega
        have hvi1 : (fun j => if j = source then true else visited j) i =
            false := by
          show (if i = source then true else visited i) = false
          rw [if_neg hne]
          exact hun
        have hsucc : ∀ p, ∃ pr m2 v2 p2,
            findPathF N destination fuel i mat
              (fun j => if j = source then true else visited j) p
              (pathIndex + 1) = some (true, pr, m2, v2, p2) := by
          intro p
          exact ih i mat _ p (pathIndex + 1) hchild
            (Or.inl ⟨hi, hvi1, hunv1⟩)
        obtain ⟨pr, m2, v2, p2, htry⟩ :=
          @tryNeighbors_complete N source
            (fun i m v p =>
              findPathF N destination fuel i m v p (pathIndex + 1))
            mat (fun j => if j = source then true else visited j)
            (fun i m vv p r hr =>
              findPathF_matrix N destination fuel i m vv p _ r hr)
            (fun i m vv p pr0 m0 v0 p0 hvi hr j => by
              rw [findPathF_restore N destination fuel i m vv p _ pr0 m0
                v0 p0 hr j]
              by_cases hj : j = i
              · rw [if_pos hj, hj, hvi]
              · rw [if_neg hj])
            (fun i2 p hi2 hvi2 =>
              findPathF_total N destination fuel i2 mat _ p (pathIndex + 1)
                (Or.inl ⟨hi2, hvi2, hunv1⟩))
            i hsucc hvi1 he (List.range N)
            (fun x hx => List.mem_range.mp hx)
            (List.mem_range.mpr hi)
            (fun j => if j = pathIndex then source else path j)
        rw [htry]
        exact ⟨pr, m2, v2, p2, rfl⟩

/-! ### `CanReach` is reachability -/

theorem CanReach_sound {N : Nat} {A : Mat} {destination : Nat} :
    ∀ {V : Nat → Bool} {s : Nat}, CanReach N A destination V s → s < N →
      s = destination ∨ NWalk N A s destination := by
  intro V s h
  induction h with
  | found V => intro _; exact Or.inl rfl
  | @step V s i hi he hne hun h ih =>
    intro hs
    rcases ih hi with rfl | hw
    · exact Or.inr (NWalk.edge hs hi he)
    · exact Or.inr (NWalk.cons hs he hw)

theorem CanReach_of_walk {N : Nat} {A : Mat} {destination : Nat} :
    ∀ (xs : List Nat) (V : Nat → Bool) (s : Nat),
      WalkFrom N A s xs → xs ≠ [] → walkEnd s xs = destination →
      (s :: xs).Nodup → (∀ x ∈ xs, V x = false) →
      CanReach N A destination V s := by
  intro xs
  induction xs with
  | nil => intro V s _ h; exact absurd rfl h
  | cons i rest ih =>
    intro V s hwalk hne hend hnd hunv
    cases hwalk with
    | cons hi he hrest =>
      have hsi : s ∉ i :: rest := (List.nodup_cons.mp hnd).1
      have hine : i ≠ s := by
        intro h
        exact hsi (h ▸ List.mem_cons_self i rest)
      have hVi : V i = false := hunv i (by simp)
      by_cases hrest_nil : rest = []
      · subst hrest_nil
        rw [walkEnd_cons, walkEnd_nil] at hend
        subst hend
        exact CanReach.step hi he hine hVi (CanReach.found _)
      · apply CanReach.step hi he hine hVi
        apply ih (fun j => if j = s then true else V j) i hrest hrest_nil
        · rw [walkEnd_cons] at hend
          exact hend
        · exact (List.nodup_cons.mp hnd).2
        · intro x hx
          have hxs : x ≠ s := by
            intro h
            exact hsi (h ▸ List.mem_cons_of_mem i hx)
          show (if x = s then true else V x) = false
          rw [if_neg hxs]
          exact hunv x (List.mem_cons_of_mem i hx)

/-! ### Top-level `findPath` facts -/

theorem findPath_isSome (N : Nat) (A : Mat) (s d : Nat) (hs : s < N) :
    (findPath N A s d).isSome = true := by
  rw [findPath]
  apply findPathF_total
  left
  refine ⟨hs, rfl, ?_⟩
  have : unvisN N (fun _ => false) ≤ N := by
    rw [unvisN]
    calc ((List.range N).filter
        (fun i => (fun _ => false : Nat → Bool) i = false)).length
        ≤ (List.range N).length := List.length_filter_le _ _
      _ = N := List.length_range N
  omega

theorem findPath_success_iff (N : Nat) (A : Mat) (s d : Nat) (hs : s < N) :
    statusOf (findPath N A s d) = some true ↔ (s = d ∨ NWalk N A s d) := by
  constructor
  · intro h
    cases hres : findPath N A s d with
    | none =>
      rw [statusOf, hres] at h
      cases h
    | some res =>
      obtain ⟨b, pr, m2, v2, p2⟩ := res
      rw [statusOf, hres] at h
      injection h with h
      have hb : b = true := h
      subst hb
      have hreach : CanReach N A d (fun _ => false) s :=
        findPathF_sound N d (N + 1) s A (fun _ => false) (fun _ => 0) 0
          pr m2 v2 p2 hres
      exact CanReach_sound hreach hs
  · intro h
    by_cases hsd : s = d
    · subst hsd
      rw [findPath, findPathF, if_pos rfl]
      rfl
    · rcases h with h | hwalk
      · exact absurd h hsd
      · obtain ⟨ys, hys, hwalkys, hend, hnd, _⟩ := hwalk.short hsd
        have hreach : CanReach N A d (fun _ => false) s :=
          CanReach_of_walk ys (fun _ => false) s hwalkys hys hend hnd
            (fun x _ => rfl)
        have hunv : unvisN N (fun _ => false) ≤ N := by
          rw [unvisN]
          calc ((List.range N).filter
              (fun i => (fun _ => false : Nat → Bool) i = false)).length
              ≤ (List.range N).length := List.length_filter_le _ _
            _ = N := List.length_range N
        obtain ⟨pr, m2, v2, p2, hres⟩ :=
          findPathF_complete N d (N + 1) s A (fun _ => false) (fun _ => 0)
            0 hreach (Or.inl ⟨hs, rfl, by omega⟩)
        rw [statusOf, findPath, hres]
        rfl

theorem findPath_status_total (N : Nat) (A : Mat) (s d : Nat) (hs : s < N) :
    statusOf (findPath N A s d) = some true ∨
      statusOf (findPath N A s d) = some false := by
  have hsome := findPath_isSome N A s d hs
  cases hres : findPath N A s d with
  | none => rw [hres] at hsome; cases hsome
  | some res =>
    cases hb : res.1 with
    | true =>
      left
      exact congrArg some hb
    | false =>
      right
      exact congrArg some hb

/-! ## Claim C2 -/


/-- C2 as stated is false at `s = d`: on the one-vertex edgeless graph,
`findPath(0,0)` succeeds (so it does not return NotFound), while `(0,0)` is
absent from the emitted closure, breaking the claimed equivalence. -/
theorem c2_counterexample :
    statusOf (findPath 1 matZero 0 0) = some true ∧
      (0, 0) ∉ calculateTransitiveClosure 1 matZero := by
  constructor
  · decide
  · decide

/-- C2 (amended): for in-range distinct vertices, `findPath(s,d)` returns
NotFound iff `(s,d)` is absent from the emitted closure; for `s = d`,
`findPath` always succeeds, even when `(s,s)` is not emitted. -/
theorem c2_notfound_iff (N : Nat) (A : Mat) (s d : Nat) (hs : s < N)
    (hd : d < N) :
    (s ≠ d → (statusOf (findPath N A s d) = some false ↔
      (s, d) ∉ calculateTransitiveClosure N A)) ∧
    (s = d → statusOf (findPath N A s d) = some true) := by
  constructor
  · intro hne
    have hmem : (s, d) ∈ calculateTransitiveClosure N A ↔ NWalk N A s d := by
      rw [mem_calculateTransitiveClosure]
      constructor
      · rintro ⟨_, _, (⟨_, hw⟩ | ⟨heq, _⟩)⟩
        · exact hw
        · exact absurd heq hne
      · intro hw
        exact ⟨hs, hd, Or.inl ⟨hne, hw⟩⟩
    constructor
    · intro hfail hmem2
      have hwalk := hmem.mp hmem2
      have hsucc := (findPath_success_iff N A s d hs).mpr (Or.inr hwalk)
      rw [hsucc] at hfail
      exact Bool.noConfusion (Option.some.inj hfail)
    · intro hnotmem
      rcases findPath_status_total N A s d hs with h | h
      · exfalso
        rcases (findPath_success_iff N A s d hs).mp h with rfl | hw
        · exact hne rfl
        · exact hnotmem (hmem.mpr hw)
      · exact h
  · intro hsd
    exact (findPath_success_iff N A s d hs).mpr (Or.inl hsd)

theorem c2_notfound_iff_witness :
    ((0 : Nat) ≠ 1 → (statusOf (findPath 2 matEdge 0 1) = some false ↔
      (0, 1) ∉ calculateTransitiveClosure 2 matEdge)) ∧
    ((0 : Nat) = 1 → statusOf (findPath 2 matEdge 0 1) = some true) :=
  c2_notfound_iff 2 matEdge 0 1 (by decide) (by decide)

/-! ## Claim C5 -/

/-- C5: for every in-range vertex `s`, `findPath(s,s)` succeeds immediately
and prints the single-vertex path `[s]`, regardless of the matrix. -/
theorem c5_self_path (N : Nat) (A : Mat) (s : Nat) (hs : s < N) :
    (findPath N A s s).map (fun r => (r.1, r.2.1)) = some (true, [s]) := by
  rw [findPath, findPathF, if_pos rfl]
  simp [List.range_succ]

theorem c5_self_path_witness :
    (findPath 1 matZero 0 0).map (fun r => (r.1, r.2.1)) =
      some (true, [0]) :=
  c5_self_path 1 matZero 0 (by decide)

/-! ## Claim C8 -/

/-- C8: `findPath` never writes the adjacency matrix: whatever the
arguments and however deep the recursion, every cell of the matrix returned
with the result equals the corresponding cell at entry, on success and on
failure alike. -/
theorem c8_matrix_frame (N destination fuel source : Nat) (mat : Mat)
    (visited : Nat → Bool) (path : Nat → Nat) (pathIndex : Nat) (r : DfsRes)
    (h : findPathF N destination fuel source mat visited path pathIndex =
      some r) :
    ∀ i j, r.2.2.1 i j = mat i j := by
  intro i j
  rw [findPathF_matrix N destination fuel source mat visited path pathIndex
    r h]

theorem c8_matrix_frame_witness :
    ((findPathF 1 1 2 0 matZero (fun _ => false) (fun _ => 0) 0).getD
      resJunk).2.2.1 0 0 = matZero 0 0 :=
  c8_matrix_frame 1 1 2 0 matZero (fun _ => false) (fun _ => 0) 0
    ((findPathF 1 1 2 0 matZero (fun _ => false) (fun _ => 0) 0).getD
      resJunk) rfl 0 0

/-! ## Claim C9 -/

/-- C9: when a `findPath` invocation whose source is unvisited at entry
returns 0, the visited array has been restored exactly to its entry value:
every tentative mark of the failed search, including the mark on the source,
has been cleared by backtracking. -/
theorem c9_visited_restored (N destination fuel source : Nat) (mat : Mat)
    (visited : Nat → Bool) (path : Nat → Nat) (pathIndex : Nat)
    (pr : List Nat) (m2 : Mat) (v2 : Nat → Bool) (p2 : Nat → Nat)
    (hentry : visited source = false)
    (h : findPathF N destination fuel source mat visited path pathIndex =
      some (false, pr, m2, v2, p2)) :
    ∀ j, v2 j = visited j := by
  intro j
  rw [findPathF_restore N destination fuel source mat visited path
    pathIndex pr m2 v2 p2 h j]
  by_cases hj : j = source
  · rw [if_pos hj, hj, hentry]
  · rw [if_neg hj]

theorem c9_visited_restored_witness :
    ((findPathF 1 1 2 0 matZero (fun _ => false) (fun _ => 0)
      0).getD resJunk).2.2.2.1 0 = false :=
  c9_visited_restored 1 1 2 0 matZero (fun _ => false) (fun _ => 0) 0
    _ _ _ _ rfl rfl 0

end CityLink
